import Mathlib

/-!
Verification development for the norimaki-db key encoding scheme and
dual-view indexing engine (src/key.rs, src/store.rs, src/engine.rs,
src/value.rs, src/lib.rs).  Rust strings are modelled as `List Char`;
Rust compares strings by their UTF-8 bytes, which coincides with
code-point order, so the lexicographic order on `List Char` below is
exactly the order the store uses.
-/

set_option maxHeartbeats 1000000

namespace NorimakiDB

/-- The NUL separator byte used inside keys (`SEPARATOR` in src/key.rs). -/
def sepChar : Char := Char.ofNat 0

/-- The character `\x01` used as the upper bound of a group scan range. -/
def oneChar : Char := Char.ofNat 1

/-- Keys of the store are Rust `String`s, modelled as lists of characters. -/
abbrev Key := List Char

/-- Stored values are opaque encoded Rust `String`s. -/
abbrev Val := List Char

/-- Strict lexicographic comparison of two strings, mirroring Rust `str`
ordering: the first differing character decides, and a strict prefix is
smaller than its extension. -/
def keyLtb : List Char → List Char → Bool
  | [], [] => false
  | [], _ :: _ => true
  | _ :: _, [] => false
  | a :: as, b :: bs => if a < b then true else if b < a then false else keyLtb as bs

theorem keyLtb_irrefl (l : List Char) : keyLtb l l = false := by
  induction l with
  | nil => rfl
  | cons a as ih => simp [keyLtb, lt_irrefl, ih]

theorem keyLtb_nil_right (l : List Char) : keyLtb l [] = false := by
  cases l <;> rfl

theorem keyLtb_asymm {a b : List Char} (h : keyLtb a b = true) : keyLtb b a = false := by
  induction a generalizing b with
  | nil =>
    cases b with
    | nil => simp [keyLtb] at h
    | cons x xs => rfl
  | cons c cs ih =>
    cases b with
    | nil => simp [keyLtb] at h
    | cons d ds =>
      by_cases h1 : c < d
      · have h2 : ¬ d < c := lt_asymm h1
        simp [keyLtb, h1, h2]
      · by_cases h2 : d < c
        · simp [keyLtb, h1, h2] at h
        · simp [keyLtb, h1, h2] at h ⊢
          exact ih h

theorem keyLtb_conn {a b : List Char} (h1 : keyLtb a b = false)
    (h2 : keyLtb b a = false) : a = b := by
  induction a generalizing b with
  | nil =>
    cases b with
    | nil => rfl
    | cons x xs => simp [keyLtb] at h1
  | cons c cs ih =>
    cases b with
    | nil => simp [keyLtb] at h2
    | cons d ds =>
      by_cases hcd : c < d
      · simp [keyLtb, hcd] at h1
      · by_cases hdc : d < c
        · simp [keyLtb, hdc, lt_asymm hdc] at h2
        · have hc : c = d := le_antisymm (le_of_not_lt hdc) (le_of_not_lt hcd)
          subst hc
          simp [keyLtb, hcd] at h1 h2
          rw [ih h1 h2]

theorem keyLtb_trans {a b c : List Char} (h1 : keyLtb a b = true)
    (h2 : keyLtb b c = true) : keyLtb a c = true := by
  induction a generalizing b c with
  | nil =>
    cases c with
    | nil =>
      cases b with
      | nil => simp [keyLtb] at h1
      | cons y ys => simp [keyLtb] at h2
    | cons z zs => rfl
  | cons x xs ih =>
    cases b with
    | nil => simp [keyLtb] at h1
    | cons y ys =>
      cases c with
      | nil => simp [keyLtb] at h2
      | cons z zs =>
        by_cases hxy : x < y
        · by_cases hyz : y < z
          · have : x < z := lt_trans hxy hyz
            simp [keyLtb, this]
          · by_cases hzy : z < y
            · simp [keyLtb, hyz, hzy] at h2
            · have : y = z := le_antisymm (le_of_not_lt hzy) (le_of_not_lt hyz)
              subst this
              simp [keyLtb, hxy]
        · by_cases hyx : y < x
          · simp [keyLtb, hxy, hyx] at h1
          · have : x = y := le_antisymm (le_of_not_lt hyx) (le_of_not_lt hxy)
            subst this
            simp [keyLtb, hxy] at h1
            by_cases hyz : x < z
            · simp [keyLtb, hyz]
            · by_cases hzy : z < x
              · simp [keyLtb, hyz, hzy] at h2
              · simp [keyLtb, hyz, hzy] at h2 ⊢
                exact ih h1 h2

/-- Comparing `a ++ x` with `b ++ y` when `a` and `b` have the same length:
the prefixes decide unless they are equal. -/
theorem keyLtb_append_len {a b : List Char} (x y : List Char)
    (h : a.length = b.length) :
    keyLtb (a ++ x) (b ++ y) =
      if keyLtb a b then true else if keyLtb b a then false else keyLtb x y := by
  induction a generalizing b with
  | nil =>
    cases b with
    | nil => simp [keyLtb]
    | cons d ds => simp at h
  | cons c cs ih =>
    cases b with
    | nil => simp at h
    | cons d ds =>
      simp only [List.length_cons, Nat.add_right_cancel_iff] at h
      by_cases hcd : c < d
      · simp [keyLtb, hcd]
      · by_cases hdc : d < c
        · simp [keyLtb, hcd, hdc]
        · simp only [List.cons_append, keyLtb, if_neg hcd, if_neg hdc]
          exact ih h

theorem keyLtb_append_left (p a b : List Char) :
    keyLtb (p ++ a) (p ++ b) = keyLtb a b := by
  rw [keyLtb_append_len a b rfl, keyLtb_irrefl]
  simp

/-- Decimal digit characters, as in Rust's `Display` for unsigned integers. -/
def decDigit (d : Nat) : Char :=
  match d with
  | 0 => '0' | 1 => '1' | 2 => '2' | 3 => '3' | 4 => '4'
  | 5 => '5' | 6 => '6' | 7 => '7' | 8 => '8' | _ => '9'

/-- Lower-case hexadecimal digit characters, as in Rust's `LowerHex` (`{:x}`). -/
def hexDigit (d : Nat) : Char :=
  match d with
  | 0 => '0' | 1 => '1' | 2 => '2' | 3 => '3' | 4 => '4'
  | 5 => '5' | 6 => '6' | 7 => '7' | 8 => '8' | 9 => '9'
  | 10 => 'a' | 11 => 'b' | 12 => 'c' | 13 => 'd' | 14 => 'e' | _ => 'f'

/-- Fuel-indexed digit extraction; the fuel only forces structural
recursion and is irrelevant once at least `n` (see `baseReprAux_congr`). -/
def baseReprAux (f : Nat → Char) (b : Nat) : Nat → Nat → List Char
  | 0, n => [f n]
  | fuel + 1, n =>
    if n < b ∨ b ≤ 1 then [f n]
    else baseReprAux f b fuel (n / b) ++ [f (n % b)]

/-- Canonical base-`b` representation of `n`, most significant digit first
(just "0" for zero), digits rendered through `f`.  This is how Rust formats
an unsigned integer without padding. -/
def baseRepr (f : Nat → Char) (b : Nat) (n : Nat) : List Char :=
  baseReprAux f b n n

theorem baseReprAux_congr (f : Nat → Char) (b : Nat) :
    ∀ fuel1 fuel2 n, n ≤ fuel1 → n ≤ fuel2 →
      baseReprAux f b fuel1 n = baseReprAux f b fuel2 n := by
  intro fuel1
  induction fuel1 with
  | zero =>
    intro fuel2 n h1 _
    have hn : n = 0 := by omega
    subst hn
    cases fuel2 with
    | zero => rfl
    | succ fuel2 =>
      rw [baseReprAux, baseReprAux, if_pos (by omega)]
  | succ fuel1 ih =>
    intro fuel2 n h1 h2
    cases fuel2 with
    | zero =>
      have hn : n = 0 := by omega
      subst hn
      rw [baseReprAux, baseReprAux, if_pos (by omega)]
    | succ fuel2 =>
      rw [baseReprAux, baseReprAux]
      by_cases hc : n < b ∨ b ≤ 1
      · rw [if_pos hc, if_pos hc]
      · rw [if_neg hc, if_neg hc]
        have hd : n / b < n := by
          rw [not_or, not_lt, not_le] at hc
          exact Nat.div_lt_self (by omega) (by omega)
        rw [ih fuel2 (n / b) (by omega) (by omega)]

/-- The recursive unfolding of `baseRepr`: repeated div/mod digit
extraction, exactly as an integer formatter produces the digits. -/
theorem baseRepr_unfold (f : Nat → Char) (b : Nat) (n : Nat) :
    baseRepr f b n =
      if n < b ∨ b ≤ 1 then [f n]
      else baseRepr f b (n / b) ++ [f (n % b)] := by
  by_cases hc : n < b ∨ b ≤ 1
  · rw [if_pos hc]
    cases n with
    | zero => rfl
    | succ m =>
      rw [baseRepr, baseReprAux, if_pos hc]
  · rw [if_neg hc]
    cases n with
    | zero => exact absurd (by omega) hc
    | succ m =>
      rw [baseRepr, baseReprAux, if_neg hc, baseRepr]
      have hd : (m + 1) / b ≤ m := by
        rw [not_or, not_lt, not_le] at hc
        have := Nat.div_lt_self (show 0 < m + 1 by omega) (show 1 < b by omega)
        omega
      rw [baseReprAux_congr f b m ((m + 1) / b) ((m + 1) / b) hd le_rfl]

/-- Left-pad a rendered number with `'0'` up to width `w`: the semantics of a
Rust `{:0w}` format specifier. -/
def padLeft (w : Nat) (s : List Char) : List Char :=
  List.replicate (w - s.length) '0' ++ s

/-- The decimal rendering of `n` zero-padded to (at least) width `w`
(Rust `{:06}` for `w = 6`). -/
def decPad (w n : Nat) : List Char := padLeft w (baseRepr decDigit 10 n)

/-- The lower-case hexadecimal rendering of `n` zero-padded to (at least)
width `w` (Rust `{:016x}` for `w = 16`). -/
def hexPad (w n : Nat) : List Char := padLeft w (baseRepr hexDigit 16 n)

/-- src/key.rs `monthly_key`: `"M{:06}\x00{tournament_id}"`. -/
def monthly_key (year_month : Nat) (tournament_id : List Char) : Key :=
  'M' :: (decPad 6 year_month ++ sepChar :: tournament_id)

/-- src/key.rs `tournament_key`: `"T{tournament_id}\x00{:016x}"`. -/
def tournament_key (tournament_id : List Char) (timestamp : Nat) : Key :=
  'T' :: (tournament_id ++ sepChar :: hexPad 16 timestamp)

/-- src/key.rs `monthly_scan_range`: `("M{:06}", "M{:06}")` of `ym` and `ym+1`. -/
def monthly_scan_range (year_month : Nat) : Key × Key :=
  ('M' :: decPad 6 year_month, 'M' :: decPad 6 (year_month + 1))

/-- src/key.rs `tournament_scan_range`: `("T{id}\x00", "T{id}\x01")`. -/
def tournament_scan_range (tournament_id : List Char) : Key × Key :=
  ('T' :: (tournament_id ++ [sepChar]), 'T' :: (tournament_id ++ [oneChar]))

/-- The `w` base-`b` digits of `n` at positions `w-1` down to `0`,
rendered through `f`: the exact fixed-width form of a number below `b ^ w`. -/
def fixedDigits (f : Nat → Char) (b : Nat) : Nat → Nat → List Char
  | 0, _ => []
  | w + 1, n => f (n / b ^ w % b) :: fixedDigits f b w n

theorem fixedDigits_length (f : Nat → Char) (b : Nat) (w n : Nat) :
    (fixedDigits f b w n).length = w := by
  induction w generalizing n with
  | zero => rfl
  | succ w ih => simp [fixedDigits, ih]

theorem fixedDigits_congr (f : Nat → Char) {b : Nat} {w n m : Nat}
    (h : n % b ^ w = m % b ^ w) : fixedDigits f b w n = fixedDigits f b w m := by
  induction w generalizing n m with
  | zero => rfl
  | succ w ih =>
    have hdvd : b ^ w ∣ b ^ (w + 1) := pow_dvd_pow b (Nat.le_succ w)
    have htail : n % b ^ w = m % b ^ w := by
      rw [← Nat.mod_mod_of_dvd n hdvd, ← Nat.mod_mod_of_dvd m hdvd, h]
    have hhead : n / b ^ w % b = m / b ^ w % b := by
      have hn : n % b ^ (w + 1) / b ^ w = n / b ^ w % b := by
        rw [pow_succ]
        exact Nat.mod_mul_right_div_self n (b ^ w) b
      have hm : m % b ^ (w + 1) / b ^ w = m / b ^ w % b := by
        rw [pow_succ]
        exact Nat.mod_mul_right_div_self m (b ^ w) b
      rw [← hn, ← hm, h]
    simp [fixedDigits, hhead, ih htail]

theorem fixedDigits_snoc (f : Nat → Char) (b : Nat) (w n : Nat) :
    fixedDigits f b (w + 1) n = fixedDigits f b w (n / b) ++ [f (n % b)] := by
  induction w generalizing n with
  | zero => simp [fixedDigits]
  | succ w ih =>
    have hhead : n / b ^ (w + 1) % b = n / b / b ^ w % b := by
      rw [Nat.div_div_eq_div_mul, ← pow_succ']
    calc fixedDigits f b (w + 2) n
        = f (n / b ^ (w + 1) % b) :: fixedDigits f b (w + 1) n := rfl
      _ = f (n / b / b ^ w % b) :: (fixedDigits f b w (n / b) ++ [f (n % b)]) := by
          rw [hhead, ih]
      _ = fixedDigits f b (w + 1) (n / b) ++ [f (n % b)] := rfl

/-- Fixed-width digit strings of equal width compare lexicographically the
same way the numbers compare, provided the digit map is strictly monotone. -/
theorem fixedDigits_lt (f : Nat → Char) {b : Nat}
    (hf : ∀ i j : Nat, i < j → j < b → f i < f j) :
    ∀ (w n1 n2 : Nat), n1 < n2 → n2 < b ^ w →
      keyLtb (fixedDigits f b w n1) (fixedDigits f b w n2) = true := by
  intro w
  induction w with
  | zero => intro n1 n2 h1 h2; simp at h2; omega
  | succ w ih =>
    intro n1 n2 h1 h2
    have hb : 2 ≤ b := by
      by_contra hb
      interval_cases b <;> simp_all
    have hbw : 0 < b ^ w := Nat.pos_pow_of_pos w (by omega)
    have hq2 : n2 / b ^ w < b := by
      rw [Nat.div_lt_iff_lt_mul hbw, ← pow_succ']
      omega
    have hq1 : n1 / b ^ w < b := by
      rw [Nat.div_lt_iff_lt_mul hbw, ← pow_succ']
      omega
    have hm1 : n1 / b ^ w % b = n1 / b ^ w := Nat.mod_eq_of_lt hq1
    have hm2 : n2 / b ^ w % b = n2 / b ^ w := Nat.mod_eq_of_lt hq2
    rcases Nat.lt_or_ge (n1 / b ^ w) (n2 / b ^ w) with hlt | hge
    · have hchar : f (n1 / b ^ w % b) < f (n2 / b ^ w % b) := by
        rw [hm1, hm2]; exact hf _ _ hlt hq2
      simp [fixedDigits, keyLtb, hchar]
    · have heq : n1 / b ^ w = n2 / b ^ w :=
        le_antisymm (Nat.div_le_div_right (le_of_lt h1)) hge
      have hmod : n1 % b ^ w < n2 % b ^ w := by
        have e1 := Nat.div_add_mod n1 (b ^ w)
        have e2 := Nat.div_add_mod n2 (b ^ w)
        rw [heq] at e1
        omega
      have htail : keyLtb (fixedDigits f b w n1) (fixedDigits f b w n2) = true := by
        have h1' : fixedDigits f b w (n1 % b ^ w) = fixedDigits f b w n1 :=
          fixedDigits_congr f (Nat.mod_mod_of_dvd n1 dvd_rfl)
        have h2' : fixedDigits f b w (n2 % b ^ w) = fixedDigits f b w n2 :=
          fixedDigits_congr f (Nat.mod_mod_of_dvd n2 dvd_rfl)
        have := ih (n1 % b ^ w) (n2 % b ^ w) hmod (Nat.mod_lt _ hbw)
        rwa [h1', h2'] at this
      have hchar : f (n1 / b ^ w % b) = f (n2 / b ^ w % b) := by rw [hm1, hm2, heq]
      simp [fixedDigits, keyLtb, hchar, lt_irrefl, htail]

theorem baseRepr_length_le (f : Nat → Char) {b : Nat} (hb : 2 ≤ b) :
    ∀ (w n : Nat), 1 ≤ w → n < b ^ w → (baseRepr f b n).length ≤ w := by
  intro w
  induction w with
  | zero => omega
  | succ w ih =>
    intro n _ hn
    rw [baseRepr_unfold]
    by_cases h0 : n < b ∨ b ≤ 1
    · rw [if_pos h0]; simp
    · rw [if_neg h0]
      rw [not_or, not_lt] at h0
      have hw1 : 1 ≤ w := by
        by_contra hw
        have : w = 0 := by omega
        subst this
        simp [pow_succ, pow_zero] at hn
        omega
      have hdiv : n / b < b ^ w := by
        rw [Nat.div_lt_iff_lt_mul (by omega), ← pow_succ]
        exact hn
      have := ih (n / b) hw1 hdiv
      simp only [List.length_append, List.length_cons, List.length_nil]
      omega

theorem baseRepr_eq_fixedDigits (f : Nat → Char) {b : Nat} (hb : 2 ≤ b) :
    ∀ (w n : Nat), b ^ w ≤ n → n < b ^ (w + 1) →
      baseRepr f b n = fixedDigits f b (w + 1) n := by
  intro w
  induction w with
  | zero =>
    intro n h1 h2
    have h2' : n < b := by simpa using h2
    rw [baseRepr_unfold, if_pos (Or.inl h2')]
    show [f n] = [f (n / b ^ 0 % b)]
    rw [pow_zero, Nat.div_one, Nat.mod_eq_of_lt h2']
  | succ w ih =>
    intro n h1 h2
    have hble : b ≤ n := le_trans (Nat.le_self_pow (by omega) b) h1
    rw [baseRepr_unfold, if_neg (by omega)]
    have hlow : b ^ w ≤ n / b := by
      rw [Nat.le_div_iff_mul_le (by omega), ← pow_succ]
      exact h1
    have hhigh : n / b < b ^ (w + 1) := by
      rw [Nat.div_lt_iff_lt_mul (by omega), ← pow_succ]
      exact h2
    rw [ih (n / b) hlow hhigh, ← fixedDigits_snoc]

theorem padLeft_baseRepr_eq_fixedDigits (f : Nat → Char) {b : Nat} (hb : 2 ≤ b)
    (hf0 : f 0 = '0') :
    ∀ (w n : Nat), 1 ≤ w → n < b ^ w →
      padLeft w (baseRepr f b n) = fixedDigits f b w n := by
  intro w
  induction w with
  | zero => omega
  | succ w ih =>
    intro n _ hn
    by_cases h0 : n < b ^ w
    · by_cases hw : 1 ≤ w
      · have hlen := baseRepr_length_le f hb w n hw h0
        have hq : n / b ^ w = 0 := Nat.div_eq_of_lt h0
        have hpad : w + 1 - (baseRepr f b n).length = (w - (baseRepr f b n).length) + 1 := by
          omega
        calc padLeft (w + 1) (baseRepr f b n)
            = List.replicate ((w - (baseRepr f b n).length) + 1) '0' ++ baseRepr f b n := by
              rw [padLeft, hpad]
          _ = '0' :: padLeft w (baseRepr f b n) := by
              rw [List.replicate_succ]; rfl
          _ = '0' :: fixedDigits f b w n := by rw [ih n hw h0]
          _ = fixedDigits f b (w + 1) n := by
              simp [fixedDigits, hq, hf0]
      · have hw0 : w = 0 := by omega
        subst hw0
        simp only [pow_zero, Nat.lt_one_iff] at h0
        subst h0
        rw [baseRepr_unfold, if_pos (Or.inl (by omega))]
        simp [padLeft, fixedDigits, Nat.zero_mod, Nat.zero_div, hf0]
    · have h1 : b ^ w ≤ n := le_of_not_lt h0
      rw [baseRepr_eq_fixedDigits f hb w n h1 hn, padLeft,
          fixedDigits_length, Nat.sub_self]
      rfl

theorem decDigit_strictMono : ∀ i j : Nat, i < j → j < 10 → decDigit i < decDigit j := by
  intro i j h1 h2
  interval_cases j <;> interval_cases i <;> decide

theorem hexDigit_strictMono : ∀ i j : Nat, i < j → j < 16 → hexDigit i < hexDigit j := by
  intro i j h1 h2
  interval_cases j <;> interval_cases i <;> decide

theorem decPad_eq_fixedDigits {w n : Nat} (hw : 1 ≤ w) (hn : n < 10 ^ w) :
    decPad w n = fixedDigits decDigit 10 w n :=
  padLeft_baseRepr_eq_fixedDigits decDigit (by omega) rfl w n hw hn

theorem hexPad_eq_fixedDigits {w n : Nat} (hw : 1 ≤ w) (hn : n < 16 ^ w) :
    hexPad w n = fixedDigits hexDigit 16 w n :=
  padLeft_baseRepr_eq_fixedDigits hexDigit (by omega) rfl w n hw hn

theorem decPad_lt {w a b : Nat} (hw : 1 ≤ w) (hab : a < b) (hb : b < 10 ^ w) :
    keyLtb (decPad w a) (decPad w b) = true := by
  rw [decPad_eq_fixedDigits hw (lt_trans hab hb), decPad_eq_fixedDigits hw hb]
  exact fixedDigits_lt decDigit decDigit_strictMono w a b hab hb

theorem hexPad_lt {w a b : Nat} (hw : 1 ≤ w) (hab : a < b) (hb : b < 16 ^ w) :
    keyLtb (hexPad w a) (hexPad w b) = true := by
  rw [hexPad_eq_fixedDigits hw (lt_trans hab hb), hexPad_eq_fixedDigits hw hb]
  exact fixedDigits_lt hexDigit hexDigit_strictMono w a b hab hb

theorem decPad_lt_iff {w a b : Nat} (hw : 1 ≤ w) (ha : a < 10 ^ w) (hb : b < 10 ^ w) :
    keyLtb (decPad w a) (decPad w b) = true ↔ a < b := by
  constructor
  · intro h
    by_contra hc
    rcases Nat.lt_or_ge b a with hba | hab
    · have := decPad_lt hw hba ha
      have := keyLtb_asymm this
      simp_all
    · have : a = b := by omega
      subst this
      rw [keyLtb_irrefl] at h
      exact absurd h (by simp)
  · intro h
    exact decPad_lt hw h hb

/-- Reading a decimal digit string back as a number. -/
def fromDec (s : List Char) : Nat :=
  s.foldl (fun a c => a * 10 + (c.toNat - 48)) 0

theorem foldl_baseRepr_dec (n : Nat) :
    ∀ a : Nat, (baseRepr decDigit 10 n).foldl (fun a c => a * 10 + (c.toNat - 48)) a
      = a * 10 ^ (baseRepr decDigit 10 n).length + n := by
  induction n using Nat.strong_induction_on with
  | _ n ih =>
    intro a
    by_cases h : n < 10
    · rw [baseRepr_unfold, if_pos (Or.inl h)]
      have : (decDigit n).toNat - 48 = n := by interval_cases n <;> decide
      simp [List.foldl, this, pow_one]
    · rw [baseRepr_unfold, if_neg (by omega)]
      have hdiv : n / 10 < n := Nat.div_lt_self (by omega) (by omega)
      have hmod : (decDigit (n % 10)).toNat - 48 = n % 10 := by
        have : n % 10 < 10 := Nat.mod_lt _ (by omega)
        interval_cases h10 : n % 10 <;> simp_all <;> decide
      rw [List.foldl_append]
      simp only [List.foldl_cons, List.foldl_nil, ih (n / 10) hdiv a, hmod,
        List.length_append, List.length_cons, List.length_nil]
      calc (a * 10 ^ (baseRepr decDigit 10 (n / 10)).length + n / 10) * 10 + n % 10
          = a * (10 ^ (baseRepr decDigit 10 (n / 10)).length * 10)
            + (10 * (n / 10) + n % 10) := by ring
        _ = a * 10 ^ ((baseRepr decDigit 10 (n / 10)).length + 1) + n := by
            rw [Nat.div_add_mod, pow_succ]

theorem fromDec_decPad (w n : Nat) : fromDec (decPad w n) = n := by
  rw [decPad, padLeft, fromDec, List.foldl_append]
  have hrep : ∀ k : Nat, (List.replicate k '0').foldl
      (fun a c => a * 10 + (c.toNat - 48)) 0 = 0 := by
    intro k
    induction k with
    | zero => rfl
    | succ k ih => rw [List.replicate_succ]; simpa using ih
  rw [hrep]
  have := foldl_baseRepr_dec n 0
  simpa using this

theorem decPad_inj {w a b : Nat} (h : decPad w a = decPad w b) : a = b := by
  have ha := fromDec_decPad w a
  have hb := fromDec_decPad w b
  rw [← ha, ← hb, h]

theorem char_le_toNat {a b : Char} : a ≤ b ↔ a.toNat ≤ b.toNat := by
  rw [Char.le_def, UInt32.le_def, BitVec.le_def]; rfl

theorem char_lt_toNat {a b : Char} : a < b ↔ a.toNat < b.toNat := by
  rw [Char.lt_def, UInt32.lt_def, BitVec.lt_def]; rfl

/-- The per-character step of the two `filter_map`s in `generate_tournament_id`
(src/key.rs): ASCII letters and digits are kept lower-cased (Lean core
`Char.toLower` is exactly Rust `to_ascii_lowercase` on this domain), a space
becomes an underscore, anything else is dropped. -/
def asciiStep (c : Char) : Option Char :=
  if ('a' ≤ c ∧ c ≤ 'z') ∨ ('A' ≤ c ∧ c ≤ 'Z') ∨ ('0' ≤ c ∧ c ≤ '9') then
    some c.toLower
  else if c = ' ' then some '_' else none

/-- The ASCII-retained fragment of a field (`venue_ascii` / `event_ascii`). -/
def asciiFilter (s : List Char) : List Char := s.filterMap asciiStep

/-- Rust `str::len`: the UTF-8 byte length of a string. -/
def byteLen (s : List Char) : Nat := (s.map Char.utf8Size).sum

/-- The underscore-collapsing loop of `generate_tournament_id` (src/key.rs),
as a state machine: `ne` mirrors `!result.is_empty()` and `prev` mirrors
`prev_underscore`. -/
def collapseAux : Bool → Bool → List Char → List Char
  | _, _, [] => []
  | ne, prev, c :: rest =>
    if c = '_' then
      if !prev && ne then '_' :: collapseAux ne true rest
      else collapseAux ne true rest
    else c :: collapseAux true false rest

/-- Rust `str::trim_matches('_')`: remove all leading and trailing underscores. -/
def trimUnd (s : List Char) : List Char :=
  ((s.dropWhile (· == '_')).reverse.dropWhile (· == '_')).reverse

/-- src/key.rs `generate_tournament_id`: ASCII-retained fragments with a
byte-length fallback when a fragment has at most 2 characters, joined by an
underscore, consecutive underscores collapsed, then trimmed. -/
def generate_tournament_id (venue_name event_name : List Char) : List Char :=
  let venue_ascii := asciiFilter venue_name
  let event_ascii := asciiFilter event_name
  let venue_part := if 2 < venue_ascii.length then venue_ascii
    else "venue_".data ++ baseRepr decDigit 10 (byteLen venue_name)
  let event_part := if 2 < event_ascii.length then event_ascii
    else "event_".data ++ baseRepr decDigit 10 (byteLen event_name)
  trimUnd (collapseAux false false (venue_part ++ '_' :: event_part))

/-- Collapse every run of consecutive underscores to a single one — the
operation as the specification phrases it. -/
def collapseRuns : List Char → List Char
  | [] => []
  | [c] => [c]
  | a :: b :: rest =>
    if a = '_' ∧ b = '_' then collapseRuns (b :: rest)
    else a :: collapseRuns (b :: rest)

/-- Reference derivation of the group identifier following the specification
text (§3): same retained fragments and byte-length fallback, then
"collapse any run of consecutive underscores to one; trim leading/trailing
underscores". -/
def spec_group_id (venue_name event_name : List Char) : List Char :=
  let venue_ascii := asciiFilter venue_name
  let event_ascii := asciiFilter event_name
  let venue_part := if 2 < venue_ascii.length then venue_ascii
    else "venue_".data ++ baseRepr decDigit 10 (byteLen venue_name)
  let event_part := if 2 < event_ascii.length then event_ascii
    else "event_".data ++ baseRepr decDigit 10 (byteLen event_name)
  trimUnd (collapseRuns (venue_part ++ '_' :: event_part))

theorem collapseRuns_cons_ne {c : Char} (l : List Char) (h : c ≠ '_') :
    collapseRuns (c :: l) = c :: collapseRuns l := by
  cases l with
  | nil => rfl
  | cons d rest =>
    rw [collapseRuns]
    rw [if_neg (by intro hc; exact h hc.1)]

theorem collapseRuns_underscore (l : List Char) :
    collapseRuns ('_' :: l) = '_' :: collapseRuns (l.dropWhile (· == '_')) := by
  induction l with
  | nil => rfl
  | cons d rest ih =>
    by_cases hd : d = '_'
    · subst hd
      rw [collapseRuns, if_pos ⟨rfl, rfl⟩, ih, List.dropWhile_cons]
      simp
    · have hdb : (d == '_') = false := beq_eq_false_iff_ne.mpr hd
      rw [collapseRuns, if_neg (by intro hc; exact hd hc.2), List.dropWhile_cons, hdb]
      simp

theorem collapseAux_false (l : List Char) :
    ∀ prev, collapseAux false prev l = collapseAux true false (l.dropWhile (· == '_')) := by
  induction l with
  | nil => intro prev; rfl
  | cons c rest ih =>
    intro prev
    by_cases hc : c = '_'
    · subst hc
      rw [collapseAux, if_pos rfl]
      have hcond : (!prev && false) = false := Bool.and_false _
      rw [hcond, if_neg Bool.false_ne_true, ih true, List.dropWhile_cons]
      simp
    · have hcb : (c == '_') = false := beq_eq_false_iff_ne.mpr hc
      rw [collapseAux, if_neg hc, List.dropWhile_cons, hcb]
      simp only [Bool.false_eq_true, if_false]
      rw [collapseAux, if_neg hc]

theorem collapseAux_true (l : List Char) :
    collapseAux true false l = collapseRuns l ∧
    collapseAux true true l = collapseRuns (l.dropWhile (· == '_')) := by
  induction l with
  | nil => exact ⟨rfl, rfl⟩
  | cons c rest ih =>
    by_cases hc : c = '_'
    · subst hc
      constructor
      · rw [collapseAux, if_pos rfl]
        have : (!false && true) = true := rfl
        rw [this, if_pos rfl, ih.2, collapseRuns_underscore]
      · rw [collapseAux, if_pos rfl]
        have : (!true && true) = false := rfl
        rw [this, if_neg (by simp), ih.2, List.dropWhile_cons]
        simp
    · have hcb : (c == '_') = false := beq_eq_false_iff_ne.mpr hc
      constructor
      · rw [collapseAux, if_neg hc, ih.1, collapseRuns_cons_ne rest hc]
      · rw [collapseAux, if_neg hc, ih.1, List.dropWhile_cons, hcb]
        simp only [Bool.false_eq_true, if_false]
        rw [collapseRuns_cons_ne rest hc]

theorem dropWhile_head_not (p : Char → Bool) {l m : List Char} {c : Char}
    (h : l.dropWhile p = c :: m) : p c = false := by
  induction l with
  | nil => simp [List.dropWhile] at h
  | cons a rest ih =>
    rw [List.dropWhile_cons] at h
    by_cases ha : p a
    · rw [if_pos ha] at h
      exact ih h
    · rw [if_neg ha] at h
      simp only [List.cons.injEq] at h
      rw [← h.1]
      simpa using ha

theorem dropWhile_idem (p : Char → Bool) (l : List Char) :
    (l.dropWhile p).dropWhile p = l.dropWhile p := by
  rcases h : l.dropWhile p with _ | ⟨c, m⟩
  · rfl
  · have hc := dropWhile_head_not p h
    rw [List.dropWhile_cons, hc]
    simp

theorem collapseRuns_dropWhile (l : List Char) :
    collapseRuns (l.dropWhile (· == '_')) = (collapseRuns l).dropWhile (· == '_') := by
  cases l with
  | nil => rfl
  | cons c rest =>
    by_cases hc : c = '_'
    · subst hc
      rw [collapseRuns_underscore, List.dropWhile_cons]
      simp only [beq_self_eq_true, if_true]
      rw [List.dropWhile_cons]
      simp only [beq_self_eq_true, if_true]
      rcases h : rest.dropWhile (· == '_') with _ | ⟨d, m⟩
      · rfl
      · have hd : (d == '_') = false := dropWhile_head_not (fun x => x == '_') h
        have hd' : d ≠ '_' := by simpa using hd
        rw [collapseRuns_cons_ne m hd', List.dropWhile_cons, hd]
        simp
    · have hcb : (c == '_') = false := beq_eq_false_iff_ne.mpr hc
      rw [List.dropWhile_cons, hcb]
      simp only [Bool.false_eq_true, if_false]
      rw [collapseRuns_cons_ne rest hc, List.dropWhile_cons, hcb]
      simp

theorem trimUnd_dropWhile (l : List Char) :
    trimUnd (l.dropWhile (· == '_')) = trimUnd l := by
  rw [trimUnd, trimUnd, dropWhile_idem]

theorem collapseAux_eq_collapseRuns (l : List Char) :
    collapseAux false false l = (collapseRuns l).dropWhile (· == '_') := by
  rw [collapseAux_false l false, (collapseAux_true _).1, collapseRuns_dropWhile]

/-- Proleptic-Gregorian leap-year test. -/
def isLeap (y : Int) : Bool := y % 4 = 0 && (y % 100 != 0 || y % 400 = 0)

/-- Days in a month of the proleptic Gregorian calendar (`0` for an invalid
month number). -/
def daysInMonth (y : Int) (m : Nat) : Nat :=
  match m with
  | 1 => 31 | 2 => if isLeap y then 29 else 28 | 3 => 31 | 4 => 30 | 5 => 31
  | 6 => 30 | 7 => 31 | 8 => 31 | 9 => 30 | 10 => 31 | 11 => 30 | 12 => 31
  | _ => 0

/-- A calendar date, as chrono's `NaiveDate` exposes it (`year`/`month`/`day`). -/
structure Date where
  year : Int
  month : Nat
  day : Nat
deriving DecidableEq, Repr

/-- Calendar validity of a date. -/
def ValidDate (d : Date) : Prop :=
  1 ≤ d.month ∧ d.month ≤ 12 ∧ 1 ≤ d.day ∧ d.day ≤ daysInMonth d.year d.month

instance (d : Date) : Decidable (ValidDate d) :=
  inferInstanceAs (Decidable (_ ∧ _ ∧ _ ∧ _))

/-- Modelled from the chrono collaborator's interface: the minimum
representable `NaiveDate` year (`i32::MIN >> 13`). -/
def chronoMinYear : Int := -262144

/-- Modelled from the chrono collaborator's interface: the maximum
representable `NaiveDate` year (`i32::MAX >> 13`). -/
def chronoMaxYear : Int := 262143

/-- Modelled from the chrono interface: `NaiveDate::from_ymd_opt` — `some`
exactly on calendar-valid dates within the representable year range. -/
def fromYmdOpt (y : Int) (m d : Nat) : Option Date :=
  if chronoMinYear ≤ y ∧ y ≤ chronoMaxYear ∧
     1 ≤ m ∧ m ≤ 12 ∧ 1 ≤ d ∧ d ≤ daysInMonth y m
  then some ⟨y, m, d⟩ else none

/-- chrono's `Ord` on `NaiveDate`: chronological order, i.e. lexicographic on
(year, month, day) for valid dates. -/
def dateLeb (a b : Date) : Bool :=
  if a.year < b.year then true
  else if b.year < a.year then false
  else if a.month < b.month then true
  else if b.month < a.month then false
  else a.day ≤ b.day

/-- Modelled from the chrono interface: day number of a civil date
(days since 1970-01-01, standard civil-calendar formula). -/
def toDays (dt : Date) : Int :=
  let y : Int := if dt.month ≤ 2 then dt.year - 1 else dt.year
  let era : Int := y.fdiv 400
  let yoe : Nat := (y - era * 400).toNat
  let mp : Nat := if 3 ≤ dt.month then dt.month - 3 else dt.month + 9
  let doy : Nat := (153 * mp + 2) / 5 + dt.day - 1
  let doe : Nat := yoe * 365 + yoe / 4 - yoe / 100 + doy
  era * 146097 + (doe : Int) - 719468

/-- Modelled from the chrono interface: the inverse civil-calendar
conversion, from a day number back to a calendar date. -/
def fromDays (z : Int) : Date :=
  let zz : Int := z + 719468
  let era : Int := zz.fdiv 146097
  let doe : Nat := (zz - era * 146097).toNat
  let yoe : Nat := (doe - doe / 1460 + doe / 36524 - doe / 146096) / 365
  let y : Int := (yoe : Int) + era * 400
  let doy : Nat := doe - (365 * yoe + yoe / 4 - yoe / 100)
  let mp : Nat := (5 * doy + 2) / 153
  let d : Nat := doy - (153 * mp + 2) / 5 + 1
  let m : Nat := if mp < 10 then mp + 3 else mp - 9
  ⟨if m ≤ 2 then y + 1 else y, m, d⟩

/-- Modelled from the chrono interface: `checked_add_signed` restricted to
whole days — calendar addition returning `none` when the result leaves the
representable year range.  (`NaiveDate + Duration`, which the engine uses,
*panics* in exactly the `none` case.) -/
def checkedAddDays (dt : Date) (n : Int) : Option Date :=
  let r := fromDays (toDays dt + n)
  if chronoMinYear ≤ r.year ∧ r.year ≤ chronoMaxYear then some r else none

/-- Value of an ASCII digit character. -/
def digitVal (c : Char) : Option Nat :=
  if '0' ≤ c ∧ c ≤ '9' then some (c.toNat - 48) else none

/-- Modelled from the spec: the chrono parser for the fixed `"YYYY-MM-DD"`
start-date form (§3: "start date (calendar date, ISO form)") — four year
digits, two month digits, two day digits, hyphen-separated, and the result
must be a valid calendar date.  chrono itself is an external collaborator. -/
def parse_date (s : List Char) : Option Date :=
  match s with
  | [y1, y2, y3, y4, h1, m1, m2, h2, d1, d2] =>
    match digitVal y1, digitVal y2, digitVal y3, digitVal y4,
          digitVal m1, digitVal m2, digitVal d1, digitVal d2 with
    | some a, some b, some c, some d, some e, some f, some g, some h =>
      if h1 = '-' ∧ h2 = '-' then
        let y : Int := ((1000 * a + 100 * b + 10 * c + d : Nat) : Int)
        let m := 10 * e + f
        let dd := 10 * g + h
        if 1 ≤ m ∧ m ≤ 12 ∧ 1 ≤ dd ∧ dd ≤ daysInMonth y m then some ⟨y, m, dd⟩
        else none
      else none
    | _, _, _, _, _, _, _, _ => none
  | _ => none

/-- The error type of the store (src/error.rs `StoreError`). -/
inductive StoreError where
  | ioError : List Char → StoreError
  | serializationError : List Char → StoreError
  | notFound : StoreError
  | invalidKey : StoreError
  | invalidValue : StoreError
deriving DecidableEq, Repr

instance {ε α : Type} [DecidableEq ε] [DecidableEq α] : DecidableEq (Except ε α) :=
  fun a b =>
  match a, b with
  | .error x, .error y =>
    if h : x = y then .isTrue (by rw [h]) else .isFalse (fun hc => h (by injection hc))
  | .error _, .ok _ => .isFalse (fun hc => Except.noConfusion hc)
  | .ok _, .error _ => .isFalse (fun hc => Except.noConfusion hc)
  | .ok x, .ok y =>
    if h : x = y then .isTrue (by rw [h]) else .isFalse (fun hc => h (by injection hc))

/-- A single race event (src/lib.rs `RaceEvent`); `venue_id` and
`duration_days` are `u32` in the source. -/
structure RaceEvent where
  venue_id : Nat
  venue_name : List Char
  event_name : List Char
  grade : List Char
  start_date : List Char
  duration_days : Nat
deriving DecidableEq, Repr

/-- A monthly schedule (src/lib.rs `MonthlySchedule`). -/
structure MonthlySchedule where
  year_month : List Char
  events : List RaceEvent
deriving DecidableEq, Repr

/-- A length-prefixed string chunk of the modelled value encoding. -/
def encStr (s : List Char) : List Char :=
  baseRepr decDigit 10 s.length ++ ';' :: s

/-- Modelled from the spec (§4.3): the value codec (bincode wrapped in
base64) is an external collaborator specified only by the byte-preserving
round-trip contract `decode (encode v) = v`; we model `serialize_to_string`
by a concrete injective length-prefixed rendering of the event fields. -/
def serialize_to_string (e : RaceEvent) : Val :=
  baseRepr decDigit 10 e.venue_id ++ ';' ::
    (encStr e.venue_name ++ encStr e.event_name ++ encStr e.grade ++
     encStr e.start_date ++ baseRepr decDigit 10 e.duration_days ++ [';'])

/-- Read a `;`-terminated decimal number. -/
def readNumAux : List Char → Nat → Option (Nat × List Char)
  | [], _ => none
  | c :: rest, acc =>
    if c = ';' then some (acc, rest)
    else match digitVal c with
      | some d => readNumAux rest (acc * 10 + d)
      | none => none

/-- Read one length-prefixed string chunk. -/
def readChunk (s : List Char) : Option (List Char × List Char) :=
  match readNumAux s 0 with
  | none => none
  | some (n, rest) =>
    if n ≤ rest.length then some (rest.take n, rest.drop n) else none

/-- Modelled from the spec (§4.3): `deserialize_from_string` — the partial
inverse of the modelled encoding; fails with `SerializationError` on
malformed input, as the contract requires. -/
def deserialize_from_string (v : Val) : Except StoreError RaceEvent :=
  match readNumAux v 0 with
  | none => .error (.serializationError [])
  | some (vid, r1) =>
    match readChunk r1 with
    | none => .error (.serializationError [])
    | some (vn, r2) =>
      match readChunk r2 with
      | none => .error (.serializationError [])
      | some (en, r3) =>
        match readChunk r3 with
        | none => .error (.serializationError [])
        | some (gr, r4) =>
          match readChunk r4 with
          | none => .error (.serializationError [])
          | some (sd, r5) =>
            match readNumAux r5 0 with
            | none => .error (.serializationError [])
            | some (dur, r6) =>
              if r6 = [] then .ok ⟨vid, vn, en, gr, sd, dur⟩
              else .error (.serializationError [])

/-- The backing map of both backends (`HashMap<String, String>`), modelled as
an association list whose order stands for the map's unspecified iteration
order. -/
abbrev StoreData := List (Key × Val)

/-- `HashMap::insert`: upsert, replacing any previous value of the key. -/
def mapInsert (st : StoreData) (k : Key) (v : Val) : StoreData :=
  (k, v) :: st.filter (fun p => p.1 != k)

/-- `HashMap::get`. -/
def lookupKV : StoreData → Key → Option Val
  | [], _ => none
  | (k', v) :: rest, k => if k' = k then some v else lookupKV rest k

/-- `put` as both backends implement it: rejects the empty key. -/
def storePut (st : StoreData) (k : Key) (v : Val) : Except StoreError StoreData :=
  if k = [] then .error .invalidKey else .ok (mapInsert st k v)

/-- `get` as both backends implement it: rejects the empty key. -/
def storeGet (st : StoreData) (k : Key) : Except StoreError (Option Val) :=
  if k = [] then .error .invalidKey else .ok (lookupKV st k)

/-- `keys`: all stored keys, in iteration order. -/
def storeKeys (st : StoreData) : List Key := st.map Prod.fst

/-- `scan` over the backing map, shared semantics of both backends:
keep entries with `start ≤ key < end`, rejecting empty bounds
(src/store.rs lines 69-80 and 177-188). -/
def storeScan (st : StoreData) (start stop : Key) :
    Except StoreError (List (Key × Val)) :=
  if start = [] ∨ stop = [] then .error .invalidKey
  else .ok (st.filter (fun kv => !keyLtb kv.1 start && keyLtb kv.1 stop))

/-- src/store.rs `MemoryStore`. -/
structure MemoryStore where
  data : StoreData

/-- src/store.rs `MemoryStore::scan`. -/
def MemoryStore.scan (st : MemoryStore) (start stop : Key) :
    Except StoreError (List (Key × Val)) :=
  if start = [] ∨ stop = [] then .error .invalidKey
  else .ok (st.data.filter (fun kv => !keyLtb kv.1 start && keyLtb kv.1 stop))

/-- src/store.rs `FileStore` (the in-memory image of the snapshot). -/
structure FileStore where
  file_path : List Char
  data : StoreData

/-- src/store.rs `FileStore::scan` — textually identical to the memory one. -/
def FileStore.scan (st : FileStore) (start stop : Key) :
    Except StoreError (List (Key × Val)) :=
  if start = [] ∨ stop = [] then .error .invalidKey
  else .ok (st.data.filter (fun kv => !keyLtb kv.1 start && keyLtb kv.1 stop))

/-- Split a string at every occurrence of `sep` (Rust `str::split`). -/
def splitOnChar (sep : Char) : List Char → List (List Char)
  | [] => [[]]
  | c :: rest =>
    if c = sep then [] :: splitOnChar sep rest
    else match splitOnChar sep rest with
      | [] => [[c]]
      | s :: ss => (c :: s) :: ss

/-- Digits-only reading of a natural number. -/
def parseNatAux : List Char → Nat → Option Nat
  | [], acc => some acc
  | c :: rest, acc =>
    match digitVal c with
    | some d => parseNatAux rest (acc * 10 + d)
    | none => none

/-- Rust `str::parse::<u32>` on the strings the engine feeds it: a non-empty
digit string whose value fits in a `u32`. -/
def parseNatDigits (s : List Char) : Option Nat :=
  if s = [] then none
  else match parseNatAux s 0 with
    | some n => if n < 2 ^ 32 then some n else none
    | none => none

/-- src/engine.rs `parse_year_month`: `"YYYY-MM" -> YYYYMM`, rejecting
anything but two hyphen-separated numbers with `1 ≤ month ≤ 12`. -/
def parse_year_month (ym : List Char) : Except StoreError Nat :=
  match splitOnChar '-' ym with
  | [p1, p2] =>
    match parseNatDigits p1, parseNatDigits p2 with
    | some y, some m =>
      if m < 1 ∨ 12 < m then .error .invalidValue else .ok (y * 100 + m)
    | _, _ => .error .invalidValue
  | _ => .error .invalidValue

/-- src/engine.rs `format_year_month`: `YYYYMM -> "{:04}-{:02}"`. -/
def format_year_month (ym : Nat) : List Char :=
  decPad 4 (ym / 100) ++ '-' :: decPad 2 (ym % 100)

/-- The per-event write loop of `put_monthly_schedule`. -/
def putEventsLoop (ym : Nat) : List RaceEvent → StoreData → Except StoreError StoreData
  | [], st => .ok st
  | ev :: rest, st =>
    match storePut st (monthly_key ym (generate_tournament_id ev.venue_name ev.event_name))
        (serialize_to_string ev) with
    | .error e => .error e
    | .ok st' => putEventsLoop ym rest st'

/-- src/engine.rs `BoatRaceEngine::put_monthly_schedule` (over the shared
backing-map semantics of §4.2). -/
def put_monthly_schedule (sch : MonthlySchedule) (st : StoreData) :
    Except StoreError StoreData :=
  match parse_year_month sch.year_month with
  | .error e => .error e
  | .ok ym => putEventsLoop ym sch.events st

/-- The decode loop shared by `get_monthly_schedule` and
`get_tournament_races`: decode every scanned value in order, aborting at the
first failure. -/
def decodeAllWith {α : Type} (dec : Val → Except StoreError α) :
    List (Key × Val) → Except StoreError (List α)
  | [] => .ok []
  | (_, v) :: rest =>
    match dec v with
    | .error e => .error e
    | .ok a =>
      match decodeAllWith dec rest with
      | .error e => .error e
      | .ok as => .ok (a :: as)

/-- The comparator of the `sort_by` in `get_monthly_schedule`
(`a.start_date.cmp(&b.start_date)`, ascending, as a `≤` test). -/
def startDateLe (a b : RaceEvent) : Bool := !keyLtb b.start_date a.start_date

/-- Insert into a sorted list, before the first element that is not
strictly smaller — the stable insertion position. -/
def insertSorted {α : Type} (le : α → α → Bool) (a : α) : List α → List α
  | [] => [a]
  | b :: l => if le a b then a :: b :: l else b :: insertSorted le a l

/-- Stable sort by a total comparator.  Rust `Vec::sort_by` is a stable sort
driven by the same comparator; a stable sort's output is determined by the
comparator alone, so this insertion sort computes exactly what the Rust call
computes. -/
def sortByLe {α : Type} (le : α → α → Bool) : List α → List α
  | [] => []
  | a :: l => insertSorted le a (sortByLe le l)

theorem insertSorted_perm {α : Type} (le : α → α → Bool) (a : α) :
    ∀ l : List α, (insertSorted le a l).Perm (a :: l) := by
  intro l
  induction l with
  | nil => exact List.Perm.refl _
  | cons b l ih =>
    rw [insertSorted]
    by_cases h : le a b
    · rw [if_pos h]
    · rw [if_neg h]
      exact (ih.cons b).trans (List.Perm.swap a b l)

theorem sortByLe_perm {α : Type} (le : α → α → Bool) :
    ∀ l : List α, (sortByLe le l).Perm l := by
  intro l
  induction l with
  | nil => exact List.Perm.refl _
  | cons a l ih =>
    rw [sortByLe]
    exact (insertSorted_perm le a (sortByLe le l)).trans (ih.cons a)

theorem insertSorted_pairwise {α : Type} {le : α → α → Bool}
    (htot : ∀ x y, le x y = true ∨ le y x = true)
    (htrans : ∀ x y z, le x y = true → le y z = true → le x z = true)
    (a : α) : ∀ {l : List α}, l.Pairwise (fun x y => le x y = true) →
      (insertSorted le a l).Pairwise (fun x y => le x y = true) := by
  intro l
  induction l with
  | nil => intro _; simp [insertSorted]
  | cons b l ih =>
    intro hl
    rw [List.pairwise_cons] at hl
    rw [insertSorted]
    by_cases h : le a b
    · rw [if_pos h, List.pairwise_cons]
      refine ⟨?_, List.pairwise_cons.mpr hl⟩
      intro x hx
      rcases List.mem_cons.mp hx with hx | hx
      · rw [hx]; exact h
      · exact htrans a b x h (hl.1 x hx)
    · rw [if_neg h, List.pairwise_cons]
      refine ⟨?_, ih hl.2⟩
      intro x hx
      rcases List.mem_cons.mp ((insertSorted_perm le a l).mem_iff.mp hx) with hx | hx
      · rw [hx]
        rcases htot a b with hab | hba
        · exact absurd hab h
        · exact hba
      · exact hl.1 x hx

theorem sortByLe_pairwise {α : Type} {le : α → α → Bool}
    (htot : ∀ x y, le x y = true ∨ le y x = true)
    (htrans : ∀ x y z, le x y = true → le y z = true → le x z = true) :
    ∀ l : List α, (sortByLe le l).Pairwise (fun x y => le x y = true) := by
  intro l
  induction l with
  | nil => simp [sortByLe]
  | cons a l ih =>
    rw [sortByLe]
    exact insertSorted_pairwise htot htrans a ih

/-- src/engine.rs `BoatRaceEngine::get_monthly_schedule`: scan the month's
range, decode every value, sort by start date, tag with the formatted
year-month. -/
def get_monthly_schedule (ym : Nat) (st : StoreData) :
    Except StoreError MonthlySchedule :=
  match storeScan st (monthly_scan_range ym).1 (monthly_scan_range ym).2 with
  | .error e => .error e
  | .ok results =>
    match decodeAllWith deserialize_from_string results with
    | .error e => .error e
    | .ok events => .ok ⟨format_year_month ym, sortByLe startDateLe events⟩

/-- src/engine.rs `BoatRaceEngine::put_race_data`; the generic payload
arrives already serialized through the value codec. -/
def put_race_data (tournament_id : List Char) (timestamp : Nat) (v : Val)
    (st : StoreData) : Except StoreError StoreData :=
  storePut st (tournament_key tournament_id timestamp) v

/-- src/engine.rs `BoatRaceEngine::get_tournament_races`: scan the group's
range and decode every value — no sort; the Rust generic `T: DeserializeOwned`
becomes the decoder parameter `dec`. -/
def get_tournament_races {α : Type} (dec : Val → Except StoreError α)
    (tournament_id : List Char) (st : StoreData) : Except StoreError (List α) :=
  match storeScan st (tournament_scan_range tournament_id).1
      (tournament_scan_range tournament_id).2 with
  | .error e => .error e
  | .ok results => decodeAllWith dec results

/-- src/engine.rs `BoatRaceEngine::get_race_data`. -/
def get_race_data {α : Type} (dec : Val → Except StoreError α)
    (tournament_id : List Char) (timestamp : Nat) (st : StoreData) :
    Except StoreError α :=
  match storeGet st (tournament_key tournament_id timestamp) with
  | .error e => .error e
  | .ok none => .error .notFound
  | .ok (some v) => dec v

/-- Rust `String::starts_with(char)`. -/
def startsWithChar (c : Char) : Key → Bool
  | [] => false
  | d :: _ => d == c

/-- Rust `str::split('\x00')` as used by `get_statistics`. -/
def splitNul (k : Key) : List (List Char) := splitOnChar sepChar k

/-- src/engine.rs `BoatRaceEngine::get_statistics`: count `M`- and
`T`-prefixed keys and the distinct NUL-delimited second segments of the
`M`-prefixed keys (the `HashSet` size becomes `dedup.length`). -/
def get_statistics (st : StoreData) : Except StoreError (Nat × Nat × Nat) :=
  let all_keys := storeKeys st
  let monthly_keys := (all_keys.filter (startsWithChar 'M')).length
  let tournament_keys := (all_keys.filter (startsWithChar 'T')).length
  let unique_tournaments :=
    ((all_keys.filterMap fun k =>
        if startsWithChar 'M' k then (splitNul k).get? 1 else none).dedup).length
  .ok (monthly_keys, unique_tournaments, tournament_keys)

/-- `year as u32 * 100 + month` — the (wrapping) `u32` year-month code the
registration loop compares. -/
def ymU32 (d : Date) : Nat :=
  ((d.year * 100 + (d.month : Int)) % (2 ^ 32 : Int)).toNat

/-- The exact year-month code as an integer (no wrap). -/
def ymCode (d : Date) : Int := d.year * 100 + (d.month : Int)

/-- The "move to the first day of the next month" step of
`register_tournament_to_months` (the December → January roll). -/
def regStep (cur : Date) : Option Date :=
  if cur.month = 12 then fromYmdOpt (cur.year + 1) 1 1
  else fromYmdOpt cur.year (cur.month + 1) 1

theorem regStep_some {cur cur' : Date} (h : regStep cur = some cur') :
    ymCode cur < ymCode cur' ∧ ymCode cur' ≤ 26214312 ∧
    cur'.day = 1 ∧ 1 ≤ cur'.month ∧ cur'.month ≤ 12 ∧ cur'.year ≤ chronoMaxYear ∧
    (if cur.month = 12 then cur' = ⟨cur.year + 1, 1, 1⟩
     else cur' = ⟨cur.year, cur.month + 1, 1⟩) := by
  rw [regStep] at h
  by_cases h12 : cur.month = 12
  · rw [if_pos h12, fromYmdOpt] at h
    split at h
    · rename_i hcond
      rw [chronoMinYear, chronoMaxYear] at hcond
      simp only [Option.some.injEq] at h
      subst h
      refine ⟨?_, ?_, rfl, le_refl 1, show (1 : Nat) ≤ 12 by decide, ?_,
        by rw [if_pos h12]⟩
      · show cur.year * 100 + (cur.month : Int) < (cur.year + 1) * 100 + ((1 : Nat) : Int)
        omega
      · show (cur.year + 1) * 100 + ((1 : Nat) : Int) ≤ 26214312
        omega
      · show cur.year + 1 ≤ chronoMaxYear
        rw [chronoMaxYear]
        omega
    · exact absurd h (by simp)
  · rw [if_neg h12, fromYmdOpt] at h
    split at h
    · rename_i hcond
      rw [chronoMinYear, chronoMaxYear] at hcond
      simp only [Option.some.injEq] at h
      subst h
      refine ⟨?_, ?_, rfl, show 1 ≤ cur.month + 1 by omega,
        show cur.month + 1 ≤ 12 by omega, ?_, by rw [if_neg h12]⟩
      · show cur.year * 100 + (cur.month : Int) < cur.year * 100 + ((cur.month + 1 : Nat) : Int)
        omega
      · show cur.year * 100 + ((cur.month + 1 : Nat) : Int) ≤ 26214312
        omega
      · show cur.year ≤ chronoMaxYear
        rw [chronoMaxYear]
        omega
    · exact absurd h (by simp)

/-- The body of the `while current_date <= end_date` loop of
`register_tournament_to_months` (src/engine.rs lines 140-161), with a fuel
parameter that only forces structural recursion: the loop's month code
strictly increases and is bounded, so with the fuel `regFuel` the zero-fuel
branch is never reached (see `regLoopFuel_congr`). -/
def regLoopFuel (ev : RaceEvent) (e : Date) :
    Nat → Date → StoreData → Except StoreError Unit × StoreData
  | 0, _, st => (.ok (), st)
  | fuel + 1, cur, st =>
    if dateLeb cur e then
      match storePut st
          (monthly_key (ymU32 cur) (generate_tournament_id ev.venue_name ev.event_name))
          (serialize_to_string ev) with
      | .error err => (.error err, st)
      | .ok st' =>
        match regStep cur with
        | none => (.error .invalidValue, st')
        | some cur' =>
          if ymU32 e < ymU32 cur' then (.ok (), st')
          else regLoopFuel ev e fuel cur' st'
    else (.ok (), st)

/-- Enough fuel for the registration loop starting at `cur`: the loop's
month code strictly increases and never exceeds `26214312`. -/
def regFuel (cur : Date) : Nat := ((26214313 : Int) - ymCode cur).toNat + 1

/-- The `while current_date <= end_date` loop of
`register_tournament_to_months`, returning the Rust function's result
together with the final store state. -/
def regLoop (ev : RaceEvent) (e : Date) (cur : Date) (st : StoreData) :
    Except StoreError Unit × StoreData :=
  regLoopFuel ev e (regFuel cur) cur st

theorem regLoopFuel_congr (ev : RaceEvent) (e : Date) :
    ∀ fuel1 fuel2 cur st, regFuel cur ≤ fuel1 → regFuel cur ≤ fuel2 →
      regLoopFuel ev e fuel1 cur st = regLoopFuel ev e fuel2 cur st := by
  intro fuel1
  induction fuel1 with
  | zero =>
    intro fuel2 cur st h1 _
    exact absurd h1 (by rw [regFuel]; omega)
  | succ fuel1 ih =>
    intro fuel2 cur st h1 h2
    cases fuel2 with
    | zero => exact absurd h2 (by rw [regFuel]; omega)
    | succ fuel2 =>
      rw [regLoopFuel, regLoopFuel]
      by_cases hle : dateLeb cur e
      · rw [if_pos hle, if_pos hle]
        cases storePut st
            (monthly_key (ymU32 cur) (generate_tournament_id ev.venue_name ev.event_name))
            (serialize_to_string ev) with
        | error err => rfl
        | ok st' =>
          cases hstep : regStep cur with
          | none => rfl
          | some cur' =>
            dsimp only
            by_cases hbrk : ymU32 e < ymU32 cur'
            · rw [if_pos hbrk, if_pos hbrk]
            · rw [if_neg hbrk, if_neg hbrk]
              have hs := regStep_some hstep
              have hfc : regFuel cur' ≤ fuel1 := by
                rw [regFuel] at h1 ⊢
                omega
              have hfc2 : regFuel cur' ≤ fuel2 := by
                rw [regFuel] at h2 ⊢
                omega
              exact ih fuel2 cur' st' hfc hfc2
      · rw [if_neg hle, if_neg hle]

/-- One-step unfolding of `regLoop`, exactly the Rust loop body. -/
theorem regLoop_unfold (ev : RaceEvent) (e cur : Date) (st : StoreData) :
    regLoop ev e cur st =
      if dateLeb cur e then
        match storePut st
            (monthly_key (ymU32 cur) (generate_tournament_id ev.venue_name ev.event_name))
            (serialize_to_string ev) with
        | .error err => (.error err, st)
        | .ok st' =>
          match regStep cur with
          | none => (.error .invalidValue, st')
          | some cur' =>
            if ymU32 e < ymU32 cur' then (.ok (), st')
            else regLoop ev e cur' st'
      else (.ok (), st) := by
  rw [regLoop, regFuel, regLoopFuel]
  by_cases hle : dateLeb cur e
  · rw [if_pos hle, if_pos hle]
    cases storePut st
        (monthly_key (ymU32 cur) (generate_tournament_id ev.venue_name ev.event_name))
        (serialize_to_string ev) with
    | error err => rfl
    | ok st' =>
      cases hstep : regStep cur with
      | none => rfl
      | some cur' =>
        dsimp only
        by_cases hbrk : ymU32 e < ymU32 cur'
        · rw [if_pos hbrk, if_pos hbrk]
        · rw [if_neg hbrk, if_neg hbrk, regLoop]
          have hs := regStep_some hstep
          exact regLoopFuel_congr ev e _ _ cur' st'
            (by rw [regFuel]; omega) le_rfl
  · rw [if_neg hle, if_neg hle]

/-- src/engine.rs `BoatRaceEngine::register_tournament_to_months`.  The outer
`Option` models the chrono `+` panic: `none` means the end-date addition
overflowed the representable range and the process aborted. -/
def register_tournament_to_months (ev : RaceEvent) (st : StoreData) :
    Option (Except StoreError Unit × StoreData) :=
  match parse_date ev.start_date with
  | none => some (.error .invalidValue, st)
  | some start =>
    match checkedAddDays start ((ev.duration_days : Int) - 1) with
    | none => none
    | some e => some (regLoop ev e start st)

theorem keyLtb_false_iff {a b : List Char} :
    keyLtb a b = false ↔ (keyLtb b a = true ∨ b = a) := by
  constructor
  · intro h
    by_cases hba : keyLtb b a = true
    · exact Or.inl hba
    · exact Or.inr (keyLtb_conn (by simpa using hba) h)
  · intro h
    rcases h with h | h
    · exact keyLtb_asymm h
    · rw [h, keyLtb_irrefl]

theorem keyLtb_cons_same (c : Char) (a b : List Char) :
    keyLtb (c :: a) (c :: b) = keyLtb a b := by
  have := keyLtb_append_left [c] a b
  simpa using this

/-- The list of month tags from code `c` up to code `last`, stepping by one
month and rolling December into January — the calendar months the
registration loop touches. -/
def ymList (fuel : Nat) (c last : Int) : List Int :=
  match fuel with
  | 0 => []
  | fuel + 1 =>
    if last < c then []
    else c :: ymList fuel (if c % 100 = 12 then c + 89 else c + 1) last

/-- C5: the group-data key's timestamp encoding preserves numeric order
lexicographically: for every group id and 64-bit timestamps `t1 < t2` the
key for `t1` sorts strictly below the key for `t2`, and equal timestamps
give equal keys (the timestamp is the 16-digit zero-padded hex field of
`tournament_key`). -/
theorem C5_tournament_key_timestamp_order (g : List Char) (t1 t2 : Nat)
    (h2 : t2 < 2 ^ 64) :
    (t1 < t2 → keyLtb (tournament_key g t1) (tournament_key g t2) = true) ∧
    (t1 = t2 → tournament_key g t1 = tournament_key g t2) := by
  constructor
  · intro h1
    have hkey : ∀ t, tournament_key g t = ('T' :: g ++ [sepChar]) ++ hexPad 16 t := by
      intro t
      simp [tournament_key, List.cons_append, List.append_assoc]
    rw [hkey, hkey, keyLtb_append_left]
    have h16 : t2 < 16 ^ 16 := by
      have : (2 : Nat) ^ 64 = 16 ^ 16 := by norm_num
      omega
    exact hexPad_lt (by omega) h1 h16
  · intro h
    rw [h]

/-- C5 witness: the theorem instantiated at the test pair of timestamps of
src/key.rs (`1694524800000` and its successor). -/
theorem C5_tournament_key_timestamp_order_witness :
    ((1694524800000 : Nat) < 1694524800001 →
      keyLtb (tournament_key ("tokyo_bay_cup".data) 1694524800000)
        (tournament_key ("tokyo_bay_cup".data) 1694524800001) = true) ∧
    ((1694524800000 : Nat) = 1694524800001 →
      tournament_key ("tokyo_bay_cup".data) 1694524800000 =
        tournament_key ("tokyo_bay_cup".data) 1694524800001) :=
  C5_tournament_key_timestamp_order ("tokyo_bay_cup".data) 1694524800000
    1694524800001 (by norm_num)

/-- C3: `generate_tournament_id` equals the specification's reference
derivation for all inputs; in particular the pure-ASCII pair
`("Tokyo", "Bay Cup 2025")` yields `"tokyo_bay_cup_2025"`, and the
non-ASCII pair from the source's own test yields the deterministic
byte-length form `"venue_9_event_36"`. -/
theorem C3_generate_tournament_id_spec :
    (∀ venue_name event_name : List Char,
      generate_tournament_id venue_name event_name =
        spec_group_id venue_name event_name) ∧
    generate_tournament_id ("Tokyo".data) ("Bay Cup 2025".data) =
      "tokyo_bay_cup_2025".data ∧
    generate_tournament_id ("平和島".data) ("トーキョー・ベイ・カップ".data) =
      "venue_9_event_36".data := by
  refine ⟨?_, by decide, by decide⟩
  intro venue_name event_name
  rw [generate_tournament_id, spec_group_id, collapseAux_eq_collapseRuns]
  exact trimUnd_dropWhile _

/-- C4: for every store state, `scan(start, end)` (both the in-memory and
the file-backed backend) rejects empty bounds with `InvalidKey`, and
otherwise returns exactly the stored pairs whose key `k` satisfies
`start ≤ k < end` in lexicographic order; a key equal to `end` is never
included. -/
theorem C4_scan_half_open (mst : MemoryStore) (fst : FileStore)
    (start stop : Key) :
    (start = [] ∨ stop = [] →
      mst.scan start stop = .error .invalidKey ∧
      fst.scan start stop = .error .invalidKey) ∧
    (start ≠ [] → stop ≠ [] →
      ∃ l1 l2, mst.scan start stop = .ok l1 ∧ fst.scan start stop = .ok l2 ∧
        (∀ kv : Key × Val, kv ∈ l1 ↔ kv ∈ mst.data ∧
          (keyLtb start kv.1 = true ∨ start = kv.1) ∧ keyLtb kv.1 stop = true) ∧
        (∀ kv : Key × Val, kv ∈ l2 ↔ kv ∈ fst.data ∧
          (keyLtb start kv.1 = true ∨ start = kv.1) ∧ keyLtb kv.1 stop = true) ∧
        (∀ w, (stop, w) ∉ l1) ∧ (∀ w, (stop, w) ∉ l2)) := by
  constructor
  · intro h
    constructor
    · rw [MemoryStore.scan, if_pos h]
    · rw [FileStore.scan, if_pos h]
  · intro h1 h2
    have hcond : ¬(start = [] ∨ stop = []) := by
      intro h; rcases h with h | h
      · exact h1 h
      · exact h2 h
    have hmem : ∀ (data : StoreData) (kv : Key × Val),
        kv ∈ data.filter (fun kv => !keyLtb kv.1 start && keyLtb kv.1 stop) ↔
        kv ∈ data ∧ (keyLtb start kv.1 = true ∨ start = kv.1) ∧
          keyLtb kv.1 stop = true := by
      intro data kv
      rw [List.mem_filter]
      constructor
      · intro ⟨hin, hp⟩
        rw [Bool.and_eq_true, Bool.not_eq_true'] at hp
        exact ⟨hin, keyLtb_false_iff.mp hp.1, hp.2⟩
      · intro ⟨hin, hle, hlt⟩
        refine ⟨hin, ?_⟩
        rw [Bool.and_eq_true, Bool.not_eq_true']
        exact ⟨keyLtb_false_iff.mpr hle, hlt⟩
    refine ⟨_, _, by rw [MemoryStore.scan, if_neg hcond],
      by rw [FileStore.scan, if_neg hcond], hmem mst.data, hmem fst.data, ?_, ?_⟩
    · intro w hw
      have := ((hmem mst.data (stop, w)).mp hw).2.2
      rw [keyLtb_irrefl] at this
      exact absurd this (by simp)
    · intro w hw
      have := ((hmem fst.data (stop, w)).mp hw).2.2
      rw [keyLtb_irrefl] at this
      exact absurd this (by simp)

/-- C4 witness: on a one-entry store, scanning `["a", "c")` keeps the entry
at `"b"` and scanning with an empty bound fails. -/
theorem C4_scan_half_open_witness :
    ("a".data ≠ ([] : Key)) ∧ ("c".data ≠ ([] : Key)) ∧
    ∃ l1 l2,
      (MemoryStore.mk [("b".data, "1".data)]).scan "a".data "c".data = .ok l1 ∧
      (FileStore.mk "p".data [("b".data, "1".data)]).scan "a".data "c".data = .ok l2 ∧
      (∀ kv : Key × Val, kv ∈ l1 ↔ kv ∈ [("b".data, "1".data)] ∧
        (keyLtb "a".data kv.1 = true ∨ "a".data = kv.1) ∧
        keyLtb kv.1 "c".data = true) ∧
      (∀ kv : Key × Val, kv ∈ l2 ↔ kv ∈ [("b".data, "1".data)] ∧
        (keyLtb "a".data kv.1 = true ∨ "a".data = kv.1) ∧
        keyLtb kv.1 "c".data = true) ∧
      (∀ w, ("c".data, w) ∉ l1) ∧ (∀ w, ("c".data, w) ∉ l2) := by
  refine ⟨by decide, by decide, ?_⟩
  exact (C4_scan_half_open ⟨[("b".data, "1".data)]⟩ ⟨"p".data, [("b".data, "1".data)]⟩
    "a".data "c".data).2 (by decide) (by decide)

theorem decPad_length_of_lt {n : Nat} (hn : n < 10 ^ 6) : (decPad 6 n).length = 6 := by
  rw [decPad_eq_fixedDigits (by omega) hn, fixedDigits_length]

theorem keyLtb_key_vs_bound {p q : List Char} (x : List Char)
    (hlen : p.length = q.length) :
    keyLtb (('M' :: p) ++ x) ('M' :: q) = keyLtb p q := by
  calc keyLtb (('M' :: p) ++ x) ('M' :: q)
      = keyLtb (('M' :: p) ++ x) (('M' :: q) ++ []) := by rw [List.append_nil]
    _ = if keyLtb ('M' :: p) ('M' :: q) then true
        else if keyLtb ('M' :: q) ('M' :: p) then false
        else keyLtb x [] :=
        keyLtb_append_len x [] (by simp [hlen])
    _ = keyLtb p q := by
        rw [keyLtb_nil_right, keyLtb_cons_same, keyLtb_cons_same]
        by_cases h1 : keyLtb p q
        · rw [if_pos h1, h1]
        · rw [if_neg h1]
          by_cases h2 : keyLtb q p
          · rw [if_pos h2]
            simp only [Bool.not_eq_true] at h1
            rw [h1]
          · rw [if_neg h2]
            simp only [Bool.not_eq_true] at h1
            rw [h1]

/-- C6: for a valid 6-digit year-month tag `Y = y*100+m`, the monthly scan
range is `(M<Y>, M<Y+1>)` with both tags zero-padded to 6 digits, and a
monthly key built from a valid tag `Y'` lies in the half-open range exactly
when `Y' = Y`; the December boundary `202512` yields upper bound `M202513`,
which never equals a real monthly key. -/
theorem C6_monthly_scan_range (y m y2 m2 : Nat) (g : List Char)
    (hy : y ≤ 9999) (hm1 : 1 ≤ m) (hm2 : m ≤ 12)
    (hy2 : y2 ≤ 9999) (hm21 : 1 ≤ m2) (hm22 : m2 ≤ 12) :
    monthly_scan_range (y * 100 + m) =
      ('M' :: decPad 6 (y * 100 + m), 'M' :: decPad 6 (y * 100 + m + 1)) ∧
    ((keyLtb (monthly_key (y2 * 100 + m2) g) ('M' :: decPad 6 (y * 100 + m)) = false ∧
      keyLtb (monthly_key (y2 * 100 + m2) g) ('M' :: decPad 6 (y * 100 + m + 1)) = true)
      ↔ y2 * 100 + m2 = y * 100 + m) ∧
    monthly_scan_range 202512 = ('M' :: decPad 6 202512, 'M' :: decPad 6 202513) ∧
    (∀ (ym2 : Nat) (g2 : List Char),
      monthly_key ym2 g2 ≠ (monthly_scan_range 202512).2) := by
  have hY : y * 100 + m < 10 ^ 6 := by omega
  have hY1 : y * 100 + m + 1 < 10 ^ 6 := by omega
  have hY2 : y2 * 100 + m2 < 10 ^ 6 := by omega
  refine ⟨rfl, ?_, rfl, ?_⟩
  · have hkey : monthly_key (y2 * 100 + m2) g =
        ('M' :: decPad 6 (y2 * 100 + m2)) ++ (sepChar :: g) := by
      simp [monthly_key]
    have e1 : keyLtb (monthly_key (y2 * 100 + m2) g) ('M' :: decPad 6 (y * 100 + m)) =
        keyLtb (decPad 6 (y2 * 100 + m2)) (decPad 6 (y * 100 + m)) := by
      rw [hkey]
      exact keyLtb_key_vs_bound _ (by rw [decPad_length_of_lt hY2, decPad_length_of_lt hY])
    have e2 : keyLtb (monthly_key (y2 * 100 + m2) g)
        ('M' :: decPad 6 (y * 100 + m + 1)) =
        keyLtb (decPad 6 (y2 * 100 + m2)) (decPad 6 (y * 100 + m + 1)) := by
      rw [hkey]
      exact keyLtb_key_vs_bound _ (by rw [decPad_length_of_lt hY2, decPad_length_of_lt hY1])
    rw [e1, e2]
    have i1 := @decPad_lt_iff 6 (y2 * 100 + m2) (y * 100 + m) (by omega) hY2 hY
    have i2 := @decPad_lt_iff 6 (y2 * 100 + m2) (y * 100 + m + 1) (by omega) hY2 hY1
    constructor
    · intro ⟨hf, ht⟩
      have h2 := i2.mp ht
      have h1 : ¬ (y2 * 100 + m2 < y * 100 + m) := by
        intro hlt
        rw [i1.mpr hlt] at hf
        exact absurd hf (by simp)
      omega
    · intro heq
      rw [heq] at i2 ⊢
      exact ⟨keyLtb_irrefl _, i2.mpr (by omega)⟩
  · intro ym2 g2 h
    have hmem : sepChar ∈ monthly_key ym2 g2 := by simp [monthly_key]
    rw [h] at hmem
    exact absurd hmem (by decide)

/-- C6 witness: the theorem instantiated at `Y = 202512`, `Y' = 202601`,
showing the January 2026 key lies outside the December 2025 range. -/
theorem C6_monthly_scan_range_witness :
    monthly_scan_range 202512 = ('M' :: decPad 6 202512, 'M' :: decPad 6 202513) ∧
    ¬ (keyLtb (monthly_key 202601 ("g".data)) ('M' :: decPad 6 202512) = false ∧
       keyLtb (monthly_key 202601 ("g".data)) ('M' :: decPad 6 202513) = true) := by
  have h := C6_monthly_scan_range 2025 12 2026 1 ("g".data)
    (by omega) (by omega) (by omega) (by omega) (by omega) (by omega)
  refine ⟨h.2.2.1, ?_⟩
  intro hc
  have h2 := h.2.1.mp hc
  omega

theorem char_toNat_inj {a b : Char} (h : a.toNat = b.toNat) : a = b :=
  Char.ext (UInt32.toNat.inj h)

theorem char_not_lt_sep (c : Char) : ¬ c < sepChar := by
  rw [char_lt_toNat]
  have hz : sepChar.toNat = 0 := rfl
  omega

theorem char_lt_one_iff (c : Char) : c < oneChar ↔ c = sepChar := by
  rw [char_lt_toNat]
  have h1 : oneChar.toNat = 1 := rfl
  constructor
  · intro h
    exact char_toNat_inj (show c.toNat = sepChar.toNat by
      have hz : sepChar.toNat = 0 := rfl
      omega)
  · intro h
    rw [h]
    have hz : sepChar.toNat = 0 := rfl
    omega

/-- The half-open range `[p ++ "\x00", p ++ "\x01")` contains exactly the
strings with prefix `p ++ "\x00"`. -/
theorem sepRange_iff (p : List Char) :
    ∀ k : List Char,
      (keyLtb k (p ++ [sepChar]) = false ∧ keyLtb k (p ++ [oneChar]) = true) ↔
      ∃ t, p ++ sepChar :: t = k := by
  induction p with
  | nil =>
    intro k
    cases k with
    | nil => simp [keyLtb]
    | cons a as =>
      simp only [List.nil_append]
      have h1 : keyLtb (a :: as) [sepChar] = false := by
        rw [keyLtb, if_neg (char_not_lt_sep a)]
        by_cases h : sepChar < a
        · rw [if_pos h]
        · rw [if_neg h, keyLtb_nil_right]
      have h2 : keyLtb (a :: as) [oneChar] = true ↔ a = sepChar := by
        rw [keyLtb]
        by_cases ha : a < oneChar
        · rw [if_pos ha]
          simp [(char_lt_one_iff a).mp ha]
        · rw [if_neg ha]
          have hne : a ≠ sepChar := by
            intro hc
            exact ha (by rw [hc]; exact (char_lt_one_iff sepChar).mpr rfl)
          by_cases hb : oneChar < a
          · rw [if_pos hb]; simp [hne]
          · rw [if_neg hb, keyLtb_nil_right]; simp [hne]
      rw [h1]
      constructor
      · intro ⟨_, hx⟩
        exact ⟨as, by rw [h2.mp hx]⟩
      · intro ⟨t, ht⟩
        injection ht with ha' ht'
        exact ⟨rfl, h2.mpr ha'.symm⟩
  | cons q qs ih =>
    intro k
    cases k with
    | nil =>
      constructor
      · intro ⟨h1, _⟩
        rw [List.cons_append, keyLtb] at h1
        exact absurd h1 (by simp)
      · intro ⟨t, ht⟩
        exact absurd ht (by simp)
    | cons a as =>
      rw [List.cons_append, List.cons_append, keyLtb, keyLtb]
      by_cases hlt : a < q
      · simp only [if_pos hlt]
        constructor
        · intro ⟨h1', _⟩
          exact absurd h1' (by simp)
        · intro ⟨t, ht⟩
          rw [List.cons_append] at ht
          injection ht with h1' _
          exact absurd h1'.symm (ne_of_lt hlt)
      · simp only [if_neg hlt]
        by_cases hgt : q < a
        · simp only [if_pos hgt]
          constructor
          · intro ⟨_, h2'⟩
            exact absurd h2' (by simp)
          · intro ⟨t, ht⟩
            rw [List.cons_append] at ht
            injection ht with h1' _
            exact absurd h1' (ne_of_lt hgt)
        · have heq : a = q := le_antisymm (le_of_not_lt hgt) (le_of_not_lt hlt)
          subst heq
          simp only [if_neg hgt]
          rw [ih as]
          constructor
          · intro ⟨t, ht⟩
            exact ⟨t, by rw [List.cons_append, ht]⟩
          · intro ⟨t, ht⟩
            rw [List.cons_append] at ht
            injection ht with _ h2'
            exact ⟨t, h2'⟩

theorem decodeAllWith_ok {α : Type} (dec : Val → Except StoreError α)
    (f : Key × Val → α) :
    ∀ l : List (Key × Val), (∀ kv ∈ l, dec kv.2 = .ok (f kv)) →
      decodeAllWith dec l = .ok (l.map f) := by
  intro l
  induction l with
  | nil => intro _; rfl
  | cons kv rest ih =>
    intro h
    obtain ⟨k, v⟩ := kv
    rw [decodeAllWith, h (k, v) (List.mem_cons_self _ _),
      ih (fun kv hkv => h kv (List.mem_cons_of_mem _ hkv))]
    rfl

/-- C8: for a group id free of NUL bytes, `get_tournament_races` scans
exactly the range `[T<g>\x00, T<g>\x01)` — the keys carrying the group's
NUL-separated prefix — and decodes each returned value in scan order, with
no sort applied. -/
theorem C8_get_tournament_races (g : List Char) (_hg : sepChar ∉ g)
    {α : Type} (dec : Val → Except StoreError α) (st : StoreData)
    (f : Key × Val → α) :
    tournament_scan_range g = ('T' :: (g ++ [sepChar]), 'T' :: (g ++ [oneChar])) ∧
    ∃ l, storeScan st ('T' :: (g ++ [sepChar])) ('T' :: (g ++ [oneChar])) = .ok l ∧
      (∀ kv : Key × Val, kv ∈ l ↔
        kv ∈ st ∧ ∃ t, ('T' :: g) ++ sepChar :: t = kv.1) ∧
      ((∀ kv ∈ l, dec kv.2 = .ok (f kv)) →
        get_tournament_races dec g st = .ok (l.map f)) := by
  refine ⟨rfl, ?_⟩
  have hscan : storeScan st ('T' :: (g ++ [sepChar])) ('T' :: (g ++ [oneChar])) =
      .ok (st.filter (fun kv => !keyLtb kv.1 ('T' :: (g ++ [sepChar])) &&
        keyLtb kv.1 ('T' :: (g ++ [oneChar])))) := by
    rw [storeScan, if_neg (by simp)]
  refine ⟨_, hscan, ?_, ?_⟩
  · intro kv
    rw [List.mem_filter]
    have hstart : 'T' :: (g ++ [sepChar]) = ('T' :: g) ++ [sepChar] := by
      rw [List.cons_append]
    have hstop : 'T' :: (g ++ [oneChar]) = ('T' :: g) ++ [oneChar] := by
      rw [List.cons_append]
    rw [hstart, hstop]
    constructor
    · intro ⟨hin, hp⟩
      rw [Bool.and_eq_true, Bool.not_eq_true'] at hp
      exact ⟨hin, (sepRange_iff ('T' :: g) kv.1).mp ⟨hp.1, hp.2⟩⟩
    · intro ⟨hin, hpre⟩
      have := (sepRange_iff ('T' :: g) kv.1).mpr hpre
      refine ⟨hin, ?_⟩
      rw [Bool.and_eq_true, Bool.not_eq_true']
      exact this
  · intro hdec
    rw [get_tournament_races]
    have : (tournament_scan_range g).1 = 'T' :: (g ++ [sepChar]) := rfl
    rw [show storeScan st (tournament_scan_range g).1 (tournament_scan_range g).2 =
        storeScan st ('T' :: (g ++ [sepChar])) ('T' :: (g ++ [oneChar])) from rfl,
      hscan]
    exact decodeAllWith_ok dec f _ hdec

/-- C8 witness: a two-entry store in which only the key with the group's
NUL-separated prefix is returned, and the decoded payloads appear in scan
order. -/
theorem C8_get_tournament_races_witness :
    tournament_scan_range ("g".data) =
      ('T' :: ("g".data ++ [sepChar]), 'T' :: ("g".data ++ [oneChar])) ∧
    ∃ l, storeScan [(tournament_key ("g".data) 5, "xy".data)]
        ('T' :: ("g".data ++ [sepChar])) ('T' :: ("g".data ++ [oneChar])) = .ok l ∧
      (∀ kv : Key × Val, kv ∈ l ↔
        kv ∈ [(tournament_key ("g".data) 5, "xy".data)] ∧
        ∃ t, ('T' :: "g".data) ++ sepChar :: t = kv.1) ∧
      ((∀ kv ∈ l, (fun v : Val => (.ok v.length : Except StoreError Nat)) kv.2 =
          .ok ((fun kv : Key × Val => kv.2.length) kv)) →
        get_tournament_races (fun v : Val => (.ok v.length : Except StoreError Nat))
          ("g".data) [(tournament_key ("g".data) 5, "xy".data)] =
          .ok (l.map (fun kv : Key × Val => kv.2.length))) :=
  C8_get_tournament_races ("g".data) (by decide)
    (fun v : Val => (.ok v.length : Except StoreError Nat))
    [(tournament_key ("g".data) 5, "xy".data)]
    (fun kv : Key × Val => kv.2.length)

theorem keyLtb_le_trans {a b c : List Char} (h1 : keyLtb b a = false)
    (h2 : keyLtb c b = false) : keyLtb c a = false := by
  rcases keyLtb_false_iff.mp h1 with hab | hab <;>
    rcases keyLtb_false_iff.mp h2 with hbc | hbc
  · exact keyLtb_asymm (keyLtb_trans hab hbc)
  · subst hbc; exact h1
  · subst hab; exact h2
  · subst hab; subst hbc; exact keyLtb_irrefl _

theorem startDateLe_total : ∀ a b : RaceEvent,
    startDateLe a b = true ∨ startDateLe b a = true := by
  intro a b
  rw [startDateLe, startDateLe, Bool.not_eq_true', Bool.not_eq_true']
  by_cases h : keyLtb b.start_date a.start_date = true
  · exact Or.inr (keyLtb_asymm h)
  · exact Or.inl (by simpa using h)

theorem startDateLe_trans : ∀ a b c : RaceEvent, startDateLe a b = true →
    startDateLe b c = true → startDateLe a c = true := by
  intro a b c h1 h2
  rw [startDateLe, Bool.not_eq_true'] at h1 h2 ⊢
  exact keyLtb_le_trans h1 h2

/-- C2: `get_monthly_schedule` scans the monthly range, decodes every
value, sorts the events ascending by start date (fixed-width string
comparison), and returns them tagged with the `"YYYY-MM"`-formatted
year-month; the output order does not depend on the scan order beyond being
a sorted permutation of it. -/
theorem C2_get_monthly_schedule_sorted (ym : Nat) (st : StoreData)
    (f : Key × Val → RaceEvent)
    (hdec : ∀ kv ∈ st.filter (fun kv => !keyLtb kv.1 ('M' :: decPad 6 ym) &&
        keyLtb kv.1 ('M' :: decPad 6 (ym + 1))),
      deserialize_from_string kv.2 = .ok (f kv)) :
    ∃ l evs,
      storeScan st ('M' :: decPad 6 ym) ('M' :: decPad 6 (ym + 1)) = .ok l ∧
      get_monthly_schedule ym st = .ok ⟨format_year_month ym, evs⟩ ∧
      evs.Perm (l.map f) ∧
      evs.Pairwise (fun a b => startDateLe a b = true) := by
  have hscan : storeScan st ('M' :: decPad 6 ym) ('M' :: decPad 6 (ym + 1)) =
      .ok (st.filter (fun kv => !keyLtb kv.1 ('M' :: decPad 6 ym) &&
        keyLtb kv.1 ('M' :: decPad 6 (ym + 1)))) := by
    rw [storeScan, if_neg (by simp)]
  refine ⟨_, sortByLe startDateLe
    ((st.filter (fun kv => !keyLtb kv.1 ('M' :: decPad 6 ym) &&
      keyLtb kv.1 ('M' :: decPad 6 (ym + 1)))).map f), hscan, ?_, ?_, ?_⟩
  · rw [get_monthly_schedule]
    rw [show storeScan st (monthly_scan_range ym).1 (monthly_scan_range ym).2 =
        storeScan st ('M' :: decPad 6 ym) ('M' :: decPad 6 (ym + 1)) from rfl, hscan]
    dsimp only
    rw [decodeAllWith_ok deserialize_from_string f _ hdec]
  · exact sortByLe_perm startDateLe _
  · exact sortByLe_pairwise startDateLe_total startDateLe_trans _

/-- Concrete events used for witnesses: two September events inserted out of
date order. -/
def evSep10 : RaceEvent :=
  ⟨4, "Tokyo".data, "Bay Cup 2025".data, "G1".data, "2025-09-10".data, 7⟩

def evSep05 : RaceEvent :=
  ⟨1, "Osaka".data, "Summer Cup".data, "G2".data, "2025-09-05".data, 6⟩

/-- Decode a stored value, with a dummy event for undecodable input. -/
def decodeOr (kv : Key × Val) : RaceEvent :=
  match deserialize_from_string kv.2 with
  | .ok e => e
  | .error _ => ⟨0, [], [], [], [], 0⟩

/-- C2 witness: a store holding the later-dated event first still yields a
schedule sorted ascending by start date. -/
theorem C2_get_monthly_schedule_sorted_witness :
    ∃ l evs,
      storeScan [(monthly_key 202509 ("tokyo_bay_cup_2025".data),
          serialize_to_string evSep10),
        (monthly_key 202509 ("osaka_summer_cup".data),
          serialize_to_string evSep05)]
        ('M' :: decPad 6 202509) ('M' :: decPad 6 (202509 + 1)) = .ok l ∧
      get_monthly_schedule 202509
        [(monthly_key 202509 ("tokyo_bay_cup_2025".data),
          serialize_to_string evSep10),
        (monthly_key 202509 ("osaka_summer_cup".data),
          serialize_to_string evSep05)] = .ok ⟨format_year_month 202509, evs⟩ ∧
      evs.Perm (l.map decodeOr) ∧
      evs.Pairwise (fun a b => startDateLe a b = true) :=
  C2_get_monthly_schedule_sorted 202509
    [(monthly_key 202509 ("tokyo_bay_cup_2025".data), serialize_to_string evSep10),
     (monthly_key 202509 ("osaka_summer_cup".data), serialize_to_string evSep05)]
    decodeOr (by decide)

theorem startsWithChar_eq_head (c : Char) (k : Key) :
    startsWithChar c k = (k.head? == some c) := by
  cases k with
  | nil => rfl
  | cons d t => simp [startsWithChar]

theorem filterMap_if (p : Key → Bool) (f : Key → Option (List Char)) :
    ∀ l : List Key,
      l.filterMap (fun k => if p k then f k else none) =
      (l.filter p).filterMap f := by
  intro l
  induction l with
  | nil => rfl
  | cons k rest ih =>
    by_cases hp : p k
    · rw [List.filterMap_cons, if_pos hp, List.filter_cons, if_pos hp,
        List.filterMap_cons]
      cases f k <;> rw [ih]
    · rw [List.filterMap_cons, if_neg hp, List.filter_cons,
        if_neg (by simpa using hp), ih]

/-- The statistics scenario of the claim, with two distinct-group events in
one schedule and two race records for the first event's group. -/
def statsScenario : Except StoreError (Nat × Nat × Nat) := do
  let st1 ← put_monthly_schedule ⟨"2025-09".data, [evSep10, evSep05]⟩ []
  let st2 ← put_race_data ("tokyo_bay_cup_2025".data) 1694524800000 ("race1".data) st1
  let st3 ← put_race_data ("tokyo_bay_cup_2025".data) 1694524800001 ("race2".data) st2
  get_statistics st3

/-- C9 counterexample: a schedule with `events_count = 2` events of distinct
groups plus two race records for exactly one of those groups reports
`(2, 2, 2)`, not the claimed `(events_count, 1, 2) = (2, 1, 2)` — the middle
component counts distinct group ids, not `1`. -/
theorem C9_get_statistics_counterexample :
    statsScenario = .ok (2, 2, 2) ∧ statsScenario ≠ .ok (2, 1, 2) := by
  constructor
  · decide
  · decide

/-- C9 (amended): `get_statistics` returns (number of `M`-prefixed keys,
number of distinct NUL-delimited second segments of `M`-prefixed keys,
number of `T`-prefixed keys); in the claim's scenario with two
distinct-group events and two race records for one group it reports
`(events_count, number of distinct groups, 2) = (2, 2, 2)`. -/
theorem C9_get_statistics_amended :
    (∀ st : StoreData, get_statistics st = .ok
      (((storeKeys st).filter (fun k => k.head? == some 'M')).length,
       ((((storeKeys st).filter (fun k => k.head? == some 'M')).filterMap
          (fun k => (splitNul k).get? 1)).dedup).length,
       ((storeKeys st).filter (fun k => k.head? == some 'T')).length)) ∧
    statsScenario = .ok (2, 2, 2) := by
  constructor
  · intro st
    have hM : startsWithChar 'M' = fun k => k.head? == some 'M' :=
      funext (startsWithChar_eq_head 'M')
    have hT : startsWithChar 'T' = fun k => k.head? == some 'T' :=
      funext (startsWithChar_eq_head 'T')
    rw [get_statistics]
    simp only [hM, hT, filterMap_if]
  · decide

theorem toLower_self {c : Char} (h : ¬(65 ≤ c.toNat ∧ c.toNat ≤ 90)) :
    c.toLower = c := by
  simp only [Char.toLower]
  exact if_neg h

theorem toLower_upper {c : Char} (h1 : 'A' ≤ c) (h2 : c ≤ 'Z') :
    'a' ≤ c.toLower ∧ c.toLower ≤ 'z' := by
  have hn1 : 65 ≤ c.toNat := char_le_toNat.mp h1
  have hn2 : c.toNat ≤ 90 := char_le_toNat.mp h2
  have hc : Char.ofNat c.toNat = c := Char.ofNat_toNat c
  obtain ⟨n, hn⟩ : ∃ n, c.toNat = n := ⟨_, rfl⟩
  rw [hn] at hn1 hn2
  rw [← hc, hn]
  clear hc hn h1 h2
  interval_cases n <;> decide

theorem decDigit_range : ∀ d : Nat, '0' ≤ decDigit d ∧ decDigit d ≤ '9'
  | 0 => by decide
  | 1 => by decide
  | 2 => by decide
  | 3 => by decide
  | 4 => by decide
  | 5 => by decide
  | 6 => by decide
  | 7 => by decide
  | 8 => by decide
  | (n + 9) => by
      rw [show decDigit (n + 9) = '9' from rfl]
      decide

theorem asciiFilter_chars {s : List Char} {c : Char} (h : c ∈ asciiFilter s) :
    ('a' ≤ c ∧ c ≤ 'z') ∨ ('0' ≤ c ∧ c ≤ '9') ∨ c = '_' := by
  rw [asciiFilter, List.mem_filterMap] at h
  obtain ⟨a, _, hstep⟩ := h
  rw [asciiStep] at hstep
  by_cases hk : ('a' ≤ a ∧ a ≤ 'z') ∨ ('A' ≤ a ∧ a ≤ 'Z') ∨ ('0' ≤ a ∧ a ≤ '9')
  · rw [if_pos hk] at hstep
    injection hstep with hc
    subst hc
    rcases hk with h1 | h1 | h1
    · left
      have h97 : (97 : Nat) ≤ a.toNat := char_le_toNat.mp h1.1
      rw [toLower_self (by omega)]
      exact h1
    · left
      exact toLower_upper h1.1 h1.2
    · right; left
      have h57 : a.toNat ≤ 57 := char_le_toNat.mp h1.2
      rw [toLower_self (by omega)]
      exact h1
  · rw [if_neg hk] at hstep
    by_cases hsp : a = ' '
    · rw [if_pos hsp] at hstep
      injection hstep with hc
      right; right
      exact hc.symm
    · rw [if_neg hsp] at hstep
      exact absurd hstep (by simp)

theorem baseReprAux_dec_chars :
    ∀ (fuel n : Nat) (c : Char), c ∈ baseReprAux decDigit 10 fuel n →
      '0' ≤ c ∧ c ≤ '9' := by
  intro fuel
  induction fuel with
  | zero =>
    intro n c h
    rw [baseReprAux, List.mem_singleton] at h
    rw [h]
    exact decDigit_range n
  | succ fuel ih =>
    intro n c h
    rw [baseReprAux] at h
    by_cases hc : n < 10 ∨ 10 ≤ 1
    · rw [if_pos hc, List.mem_singleton] at h
      rw [h]
      exact decDigit_range n
    · rw [if_neg hc, List.mem_append] at h
      rcases h with h | h
      · exact ih (n / 10) c h
      · rw [List.mem_singleton] at h
        rw [h]
        exact decDigit_range (n % 10)

theorem baseRepr_dec_chars {n : Nat} {c : Char}
    (h : c ∈ baseRepr decDigit 10 n) : '0' ≤ c ∧ c ≤ '9' :=
  baseReprAux_dec_chars n n c h

theorem sep_not_mem_decPad (w n : Nat) : sepChar ∉ decPad w n := by
  intro h
  rw [decPad, padLeft, List.mem_append] at h
  rcases h with h | h
  · rw [List.mem_replicate] at h
    exact absurd h.2 (by decide)
  · have := (baseRepr_dec_chars h).1
    have h48 : (48 : Nat) ≤ sepChar.toNat := char_le_toNat.mp this
    have hz : sepChar.toNat = 0 := rfl
    omega

theorem collapseAux_sublist :
    ∀ (l : List Char) (ne prev : Bool), List.Sublist (collapseAux ne prev l) l := by
  intro l
  induction l with
  | nil => intro ne prev; exact List.Sublist.refl _
  | cons c rest ih =>
    intro ne prev
    rw [collapseAux]
    by_cases hc : c = '_'
    · subst hc
      rw [if_pos rfl]
      by_cases hp : (!prev && ne) = true
      · rw [if_pos hp]
        exact (ih ne true).cons₂ '_'
      · rw [if_neg hp]
        exact (ih ne true).cons '_'
    · rw [if_neg hc]
      exact (ih true false).cons₂ c

theorem collapseAux_chain :
    ∀ (l : List Char) (ne prev : Bool),
      (collapseAux ne prev l).Chain' (fun a b => ¬(a = '_' ∧ b = '_')) ∧
      (∀ c, prev = true → (collapseAux ne prev l).head? = some c → c ≠ '_') := by
  intro l
  induction l with
  | nil =>
    intro ne prev
    exact ⟨List.chain'_nil, fun c _ h => by simp [collapseAux] at h⟩
  | cons c rest ih =>
    intro ne prev
    by_cases hc : c = '_'
    · subst hc
      by_cases hp : (!prev && ne) = true
      · rw [collapseAux, if_pos rfl, if_pos hp]
        constructor
        · rw [List.chain'_cons']
          refine ⟨?_, (ih ne true).1⟩
          intro y hy hcc
          exact (ih ne true).2 y rfl hy hcc.2
        · intro c2 hprev _
          rw [hprev] at hp
          simp at hp
      · rw [collapseAux, if_pos rfl, if_neg hp]
        exact ⟨(ih ne true).1, fun c2 _ h => (ih ne true).2 c2 rfl h⟩
    · rw [collapseAux, if_neg hc]
      constructor
      · rw [List.chain'_cons']
        refine ⟨?_, (ih true false).1⟩
        intro y _ hcc
        exact hc hcc.1
      · intro c2 _ h
        simp only [List.head?, Option.some.injEq] at h
        rw [← h]
        exact hc

theorem trimUnd_prefix_drop (l : List Char) :
    trimUnd l <+: l.dropWhile (· == '_') := by
  rw [trimUnd]
  have hs : ((l.dropWhile (· == '_')).reverse.dropWhile (· == '_')) <:+
      (l.dropWhile (· == '_')).reverse := List.dropWhile_suffix _
  have hp := List.reverse_prefix.mpr hs
  rwa [List.reverse_reverse] at hp

theorem trimUnd_isInfix (l : List Char) : trimUnd l <:+: l :=
  (trimUnd_prefix_drop l).isInfix.trans (List.dropWhile_suffix _).isInfix

theorem trimUnd_head {l : List Char} {c : Char}
    (h : (trimUnd l).head? = some c) : (c == '_') = false := by
  obtain ⟨t, ht⟩ := trimUnd_prefix_drop l
  cases htr : trimUnd l with
  | nil => rw [htr] at h; simp at h
  | cons d r =>
    rw [htr] at h ht
    simp only [List.head?, Option.some.injEq] at h
    subst h
    exact dropWhile_head_not (fun x => x == '_') ht.symm

theorem trimUnd_last {l : List Char} {c : Char}
    (h : (trimUnd l).getLast? = some c) : (c == '_') = false := by
  have h' : ((l.dropWhile (· == '_')).reverse.dropWhile (· == '_')).head? = some c := by
    rw [show ((l.dropWhile (· == '_')).reverse.dropWhile (· == '_')) =
        (trimUnd l).reverse from by rw [trimUnd, List.reverse_reverse]]
    rw [List.head?_reverse]
    exact h
  cases hdr : (l.dropWhile (· == '_')).reverse.dropWhile (· == '_') with
  | nil => rw [hdr] at h'; simp at h'
  | cons d r =>
    rw [hdr] at h'
    simp only [List.head?, Option.some.injEq] at h'
    subst h'
    exact dropWhile_head_not (fun x => x == '_') hdr

theorem splitOnChar_ne_nil (sep : Char) : ∀ l : List Char, splitOnChar sep l ≠ [] := by
  intro l
  cases l with
  | nil => simp [splitOnChar]
  | cons c rest =>
    rw [splitOnChar]
    by_cases hc : c = sep
    · rw [if_pos hc]; simp
    · rw [if_neg hc]
      cases splitOnChar sep rest <;> simp

theorem splitOnChar_not_mem {sep : Char} :
    ∀ {l : List Char}, sep ∉ l → splitOnChar sep l = [l] := by
  intro l
  induction l with
  | nil => intro _; rfl
  | cons c rest ih =>
    intro h
    have hc : c ≠ sep := fun hc => h (hc ▸ List.mem_cons_self c rest)
    have hrest : sep ∉ rest := fun hr => h (List.mem_cons_of_mem c hr)
    rw [splitOnChar, if_neg hc, ih hrest]

theorem splitOnChar_append {sep : Char} :
    ∀ {a : List Char} (b : List Char), sep ∉ a →
      splitOnChar sep (a ++ sep :: b) = a :: splitOnChar sep b := by
  intro a
  induction a with
  | nil =>
    intro b _
    rw [List.nil_append, splitOnChar, if_pos rfl]
  | cons c a' ih =>
    intro b h
    have hc : c ≠ sep := fun hc => h (hc ▸ List.mem_cons_self c a')
    have ha' : sep ∉ a' := fun hr => h (List.mem_cons_of_mem c hr)
    rw [List.cons_append, splitOnChar, if_neg hc, ih b ha']

/-- C10 counterexample: on two all-space fields the ASCII fragments are
`"___"` (length 3, so no fallback applies) and the collapse/trim steps erase
everything — the group id is the empty string, refuting non-emptiness. -/
theorem C10_group_id_counterexample :
    generate_tournament_id ("   ".data) ("   ".data) = [] := by decide

/-- C10 (amended): every generated group id consists only of lowercase ASCII
letters, digits and underscores (in particular no NUL byte), never starts or
ends with an underscore, and never contains two consecutive underscores — it
may, however, be empty.  Consequently every monthly key built from it has
exactly one NUL separator and splitting there recovers the group id, so the
parsing `get_statistics` performs is unambiguous. -/
theorem C10_group_id_shape (v e : List Char) :
    (∀ c ∈ generate_tournament_id v e,
      ('a' ≤ c ∧ c ≤ 'z') ∨ ('0' ≤ c ∧ c ≤ '9') ∨ c = '_') ∧
    sepChar ∉ generate_tournament_id v e ∧
    (∀ c, (generate_tournament_id v e).head? = some c → c ≠ '_') ∧
    (∀ c, (generate_tournament_id v e).getLast? = some c → c ≠ '_') ∧
    (generate_tournament_id v e).Chain' (fun a b => ¬(a = '_' ∧ b = '_')) ∧
    (∀ ym : Nat,
      (monthly_key ym (generate_tournament_id v e)).count sepChar = 1 ∧
      splitNul (monthly_key ym (generate_tournament_id v e)) =
        ['M' :: decPad 6 ym, generate_tournament_id v e] ∧
      (splitNul (monthly_key ym (generate_tournament_id v e))).get? 1 =
        some (generate_tournament_id v e)) := by
  have hcomb : ∀ c ∈ ((if 2 < (asciiFilter v).length then asciiFilter v
        else "venue_".data ++ baseRepr decDigit 10 (byteLen v)) ++ '_' ::
        (if 2 < (asciiFilter e).length then asciiFilter e
        else "event_".data ++ baseRepr decDigit 10 (byteLen e))),
      ('a' ≤ c ∧ c ≤ 'z') ∨ ('0' ≤ c ∧ c ≤ '9') ∨ c = '_' := by
    intro c hc
    rw [List.mem_append] at hc
    have hpart : ∀ (frag : List Char) (dom : List Char) (n : Nat),
        (∀ d ∈ dom, ('a' ≤ d ∧ d ≤ 'z') ∨ ('0' ≤ d ∧ d ≤ '9') ∨ d = '_') →
        c ∈ (if 2 < frag.length then frag
          else dom ++ baseRepr decDigit 10 n) →
        c ∈ frag ∨ (('a' ≤ c ∧ c ≤ 'z') ∨ ('0' ≤ c ∧ c ≤ '9') ∨ c = '_') := by
      intro frag dom n hdom hmem
      by_cases hl : 2 < frag.length
      · rw [if_pos hl] at hmem
        exact Or.inl hmem
      · rw [if_neg hl, List.mem_append] at hmem
        rcases hmem with hmem | hmem
        · exact Or.inr (hdom c hmem)
        · exact Or.inr (Or.inr (Or.inl (baseRepr_dec_chars hmem)))
    rcases hc with hc | hc
    · rcases hpart (asciiFilter v) ("venue_".data) (byteLen v)
        (by intro d hd; fin_cases hd <;> decide) hc with h | h
      · exact asciiFilter_chars h
      · exact h
    · rcases List.mem_cons.mp hc with hc | hc
      · exact Or.inr (Or.inr hc)
      · rcases hpart (asciiFilter e) ("event_".data) (byteLen e)
          (by intro d hd; fin_cases hd <;> decide) hc with h | h
        · exact asciiFilter_chars h
        · exact h
  have hchars : ∀ c ∈ generate_tournament_id v e,
      ('a' ≤ c ∧ c ≤ 'z') ∨ ('0' ≤ c ∧ c ≤ '9') ∨ c = '_' := by
    intro c hc
    rw [generate_tournament_id] at hc
    have hc2 := (trimUnd_isInfix _).sublist.subset hc
    have hc3 := (collapseAux_sublist _ false false).subset hc2
    exact hcomb c hc3
  have hsep : sepChar ∉ generate_tournament_id v e := by
    intro h
    rcases hchars sepChar h with h1 | h1 | h1
    · exact absurd h1.1 (by decide)
    · exact absurd h1.1 (by decide)
    · exact absurd h1 (by decide)
  refine ⟨hchars, hsep, ?_, ?_, ?_, ?_⟩
  · intro c hc
    rw [generate_tournament_id] at hc
    exact beq_eq_false_iff_ne.mp (trimUnd_head hc)
  · intro c hc
    rw [generate_tournament_id] at hc
    exact beq_eq_false_iff_ne.mp (trimUnd_last hc)
  · have := (collapseAux_chain ((if 2 < (asciiFilter v).length then asciiFilter v
        else "venue_".data ++ baseRepr decDigit 10 (byteLen v)) ++ '_' ::
        (if 2 < (asciiFilter e).length then asciiFilter e
        else "event_".data ++ baseRepr decDigit 10 (byteLen e))) false false).1
    exact this.infix (trimUnd_isInfix _)
  · intro ym
    have hMsep : sepChar ∉ 'M' :: decPad 6 ym := by
      intro h
      rcases List.mem_cons.mp h with h | h
      · exact absurd h (by decide)
      · exact sep_not_mem_decPad 6 ym h
    have hkey : monthly_key ym (generate_tournament_id v e) =
        ('M' :: decPad 6 ym) ++ sepChar :: generate_tournament_id v e := by
      simp [monthly_key]
    refine ⟨?_, ?_, ?_⟩
    · rw [hkey, List.count_append, List.count_eq_zero.mpr hMsep,
        List.count_cons_self, List.count_eq_zero.mpr hsep]
    · rw [hkey, splitNul, splitOnChar_append _ hMsep,
        splitOnChar_not_mem hsep]
    · rw [hkey, splitNul, splitOnChar_append _ hMsep,
        splitOnChar_not_mem hsep]
      rfl

/-- The month tags from `c` through `last` (empty when `last < c`), stepping
one month at a time with the December → January roll. -/
def ymSpan (c last : Int) : List Int := ymList ((last - c).toNat + 1) c last

theorem ymList_nil {c last : Int} (h : last < c) :
    ∀ fuel, ymList fuel c last = [] := by
  intro fuel
  cases fuel with
  | zero => rfl
  | succ fuel => rw [ymList, if_pos h]

theorem ymList_congr :
    ∀ fuel1 fuel2 c last, (last - c).toNat < fuel1 → (last - c).toNat < fuel2 →
      ymList fuel1 c last = ymList fuel2 c last := by
  intro fuel1
  induction fuel1 with
  | zero => intro fuel2 c last h1 _; omega
  | succ fuel1 ih =>
    intro fuel2 c last h1 h2
    cases fuel2 with
    | zero => omega
    | succ fuel2 =>
      rw [ymList, ymList]
      by_cases hlt : last < c
      · rw [if_pos hlt, if_pos hlt]
      · rw [if_neg hlt, if_neg hlt]
        have hstep : c < (if c % 100 = 12 then c + 89 else c + 1) := by
          by_cases h12 : c % 100 = 12
          · rw [if_pos h12]; omega
          · rw [if_neg h12]; omega
        by_cases hnext : last < (if c % 100 = 12 then c + 89 else c + 1)
        · rw [ymList_nil hnext, ymList_nil hnext]
        · rw [ih fuel2 (if c % 100 = 12 then c + 89 else c + 1) last
            (by omega) (by omega)]

theorem ymSpan_unfold (c last : Int) :
    ymSpan c last =
      if last < c then []
      else c :: ymSpan (if c % 100 = 12 then c + 89 else c + 1) last := by
  by_cases hlt : last < c
  · rw [if_pos hlt, ymSpan, ymList, if_pos hlt]
  · rw [if_neg hlt, ymSpan, ymList, if_neg hlt, ymSpan]
    have hstep : c < (if c % 100 = 12 then c + 89 else c + 1) := by
      by_cases h12 : c % 100 = 12
      · rw [if_pos h12]; omega
      · rw [if_neg h12]; omega
    by_cases hnext : last < (if c % 100 = 12 then c + 89 else c + 1)
    · rw [ymList_nil hnext, ymList_nil hnext]
    · rw [ymList_congr ((last - c).toNat)
        ((last - (if c % 100 = 12 then c + 89 else c + 1)).toNat + 1)
        (if c % 100 = 12 then c + 89 else c + 1) last (by omega) (by omega)]

theorem lookupKV_filter_ne {st : StoreData} {k k' : Key} (h : k' ≠ k) :
    lookupKV (st.filter (fun p => p.1 != k)) k' = lookupKV st k' := by
  induction st with
  | nil => rfl
  | cons kv rest ih =>
    obtain ⟨k0, v0⟩ := kv
    by_cases h0 : k0 = k
    · subst h0
      rw [List.filter_cons, if_neg (by simp), lookupKV, if_neg (Ne.symm h), ih]
    · rw [List.filter_cons, if_pos (by simpa using h0), lookupKV, lookupKV]
      by_cases h1 : k0 = k'
      · rw [if_pos h1, if_pos h1]
      · rw [if_neg h1, if_neg h1, ih]

theorem lookupKV_mapInsert (st : StoreData) (k k' : Key) (v : Val) :
    lookupKV (mapInsert st k v) k' =
      if k' = k then some v else lookupKV st k' := by
  rw [mapInsert, lookupKV]
  by_cases h : k' = k
  · rw [if_pos h, if_pos h.symm]
  · rw [if_neg h, if_neg (Ne.symm h), lookupKV_filter_ne h]

theorem daysInMonth_pos {y : Int} {m : Nat} (h1 : 1 ≤ m) (h2 : m ≤ 12) :
    1 ≤ daysInMonth y m := by
  interval_cases m <;> simp [daysInMonth] <;> split <;> omega

theorem storePut_monthly (st : StoreData) (ym : Nat) (g : List Char) (v : Val) :
    storePut st (monthly_key ym g) v = .ok (mapInsert st (monthly_key ym g) v) := by
  rw [storePut, if_neg (by simp [monthly_key])]

theorem ymU32_eq {d : Date} (h0 : 0 ≤ d.year) (h1 : d.year ≤ chronoMaxYear)
    (h2 : d.month ≤ 12) : (ymU32 d : Int) = ymCode d := by
  rw [ymU32, ymCode]
  rw [chronoMaxYear] at h1
  have hlt : d.year * 100 + (d.month : Int) < 2 ^ 32 := by omega
  have hge : 0 ≤ d.year * 100 + (d.month : Int) := by omega
  rw [Int.emod_eq_of_lt hge hlt]
  omega

theorem dateLeb_ymCode {a b : Date} (ha1 : 1 ≤ a.month) (ha2 : a.month ≤ 12)
    (hb1 : 1 ≤ b.month) (hb2 : b.month ≤ 12) (h : dateLeb a b = true) :
    ymCode a ≤ ymCode b := by
  rw [dateLeb] at h
  rw [ymCode, ymCode]
  by_cases hy : a.year < b.year
  · omega
  · rw [if_neg hy] at h
    by_cases hy2 : b.year < a.year
    · rw [if_pos hy2] at h
      exact absurd h (by simp)
    · rw [if_neg hy2] at h
      by_cases hm : a.month < b.month
      · omega
      · rw [if_neg hm] at h
        by_cases hm2 : b.month < a.month
        · rw [if_pos hm2] at h
          exact absurd h (by simp)
        · omega

theorem dateLeb_of_first_day {a b : Date} (ha : a.day = 1) (hb1 : 1 ≤ b.day)
    (ham1 : 1 ≤ a.month) (ham2 : a.month ≤ 12)
    (hbm1 : 1 ≤ b.month) (hbm2 : b.month ≤ 12)
    (h : ymCode a ≤ ymCode b) : dateLeb a b = true := by
  rw [ymCode, ymCode] at h
  rw [dateLeb]
  by_cases hy : a.year < b.year
  · rw [if_pos hy]
  · rw [if_neg hy]
    have hyy : a.year = b.year := by omega
    rw [if_neg (by omega)]
    by_cases hm : a.month < b.month
    · rw [if_pos hm]
    · rw [if_neg hm, if_neg (by omega)]
      simp [ha]
      omega

theorem regLoop_writes (ev : RaceEvent) (e : Date) (hve : ValidDate e)
    (hbound : ymCode e < chronoMaxYear * 100 + 12) :
    ∀ (fuel : Nat) (cur : Date) (st : StoreData),
      regFuel cur ≤ fuel →
      ValidDate cur →
      0 ≤ cur.year →
      dateLeb cur e = true →
      ∃ st', regLoopFuel ev e fuel cur st = (.ok (), st') ∧
        ∀ k, lookupKV st' k =
          if k ∈ (ymSpan (ymCode cur) (ymCode e)).map
              (fun c => monthly_key c.toNat
                (generate_tournament_id ev.venue_name ev.event_name))
          then some (serialize_to_string ev)
          else lookupKV st k := by
  intro fuel
  induction fuel with
  | zero =>
    intro cur st hf _ _ _
    exact absurd hf (by rw [regFuel]; omega)
  | succ fuel ih =>
    intro cur st hf hvc hcy hle
    obtain ⟨hm1, hm2, hd1, hd2⟩ := hvc
    obtain ⟨hem1, hem2, hed1, hed2⟩ := hve
    have hcode_le : ymCode cur ≤ ymCode e := dateLeb_ymCode hm1 hm2 hem1 hem2 hle
    have hyears : cur.year ≤ chronoMaxYear ∧ e.year ≤ chronoMaxYear ∧
        0 ≤ e.year := by
      have h1 := hcode_le
      have h2 := hbound
      rw [ymCode, ymCode] at h1
      rw [ymCode] at h2
      rw [chronoMaxYear] at h2 ⊢
      omega
    have hcyle := hyears.1
    have heyle := hyears.2.1
    have hey0 := hyears.2.2
    have hue : (ymU32 e : Int) = ymCode e := ymU32_eq hey0 heyle hem2
    have huc : (ymU32 cur : Int) = ymCode cur := ymU32_eq hcy hcyle hm2
    rw [regLoopFuel, if_pos hle, storePut_monthly]
    have hyl12 : cur.month = 12 → cur.year < chronoMaxYear := by
      intro h12
      have h1 := hcode_le
      have h2 := hbound
      rw [ymCode, ymCode, h12] at h1
      rw [ymCode] at h2
      rw [chronoMaxYear] at h2 ⊢
      omega
    have hnext : regStep cur =
        some (if cur.month = 12 then (⟨cur.year + 1, 1, 1⟩ : Date)
          else ⟨cur.year, cur.month + 1, 1⟩) := by
      by_cases h12 : cur.month = 12
      · have hyl := hyl12 h12
        rw [regStep, if_pos h12, if_pos h12, fromYmdOpt, if_pos ?_]
        refine ⟨by rw [chronoMinYear]; omega, by omega, by omega, by omega,
          by omega, ?_⟩
        exact daysInMonth_pos (by omega) (by omega)
      · rw [regStep, if_neg h12, if_neg h12, fromYmdOpt, if_pos ?_]
        refine ⟨by rw [chronoMinYear]; omega, hcyle, by omega, by omega,
          by omega, ?_⟩
        exact daysInMonth_pos (by omega) (by omega)
    rw [hnext]
    dsimp only
    set cur' := (if cur.month = 12 then (⟨cur.year + 1, 1, 1⟩ : Date)
      else ⟨cur.year, cur.month + 1, 1⟩) with hcur'
    obtain ⟨hc1, hc2, hc3, hc4, hc5, hc6, hshape⟩ := regStep_some hnext
    have hcy' : 0 ≤ cur'.year := by
      have h1 := hc1
      rw [ymCode, ymCode] at h1
      omega
    have hcode' : ymCode cur' =
        (if ymCode cur % 100 = 12 then ymCode cur + 89 else ymCode cur + 1) := by
      by_cases h12 : cur.month = 12
      · rw [if_pos h12] at hshape
        rw [hshape]
        rw [show ymCode ⟨cur.year + 1, 1, 1⟩ =
          (cur.year + 1) * 100 + ((1 : Nat) : Int) from rfl]
        rw [ymCode, if_pos (by omega)]
        omega
      · rw [if_neg h12] at hshape
        rw [hshape]
        rw [show ymCode ⟨cur.year, cur.month + 1, 1⟩ =
          cur.year * 100 + ((cur.month + 1 : Nat) : Int) from rfl]
        rw [ymCode, if_neg (by omega)]
        omega
    have huc' : (ymU32 cur' : Int) = ymCode cur' := ymU32_eq hcy' hc6 hc5
    have hucval : ymU32 cur = (ymCode cur).toNat := by omega
    by_cases hbrk : ymU32 e < ymU32 cur'
    · rw [if_pos hbrk]
      have hcodebrk : ymCode e < ymCode cur' := by omega
      refine ⟨_, rfl, ?_⟩
      intro k
      have hnolt : ¬(ymCode e < ymCode cur) := by omega
      rw [ymSpan_unfold, if_neg hnolt, ← hcode', ymSpan_unfold,
        if_pos hcodebrk, List.map_cons, List.map_nil, lookupKV_mapInsert,
        hucval]
      by_cases hk : k = monthly_key (ymCode cur).toNat
          (generate_tournament_id ev.venue_name ev.event_name)
      · have hmem : k ∈ [monthly_key (ymCode cur).toNat
            (generate_tournament_id ev.venue_name ev.event_name)] := by
          rw [hk]
          exact List.mem_singleton.mpr rfl
        rw [if_pos hk, if_pos hmem]
      · have hnmem : ¬(k ∈ [monthly_key (ymCode cur).toNat
            (generate_tournament_id ev.venue_name ev.event_name)]) := by
          intro hmem
          exact hk (List.mem_singleton.mp hmem)
        rw [if_neg hk, if_neg hnmem]
    · rw [if_neg hbrk]
      have hcode'le : ymCode cur' ≤ ymCode e := by omega
      have hfuel' : regFuel cur' ≤ fuel := by
        rw [regFuel] at hf ⊢
        omega
      have hvc' : ValidDate cur' :=
        ⟨hc4, hc5, by omega,
         by
           rw [hc3]
           exact daysInMonth_pos hc4 hc5⟩
      have hle' : dateLeb cur' e = true :=
        dateLeb_of_first_day hc3 hed1 hc4 hc5 hem1 hem2 hcode'le
      obtain ⟨st', heq, hchar⟩ := ih cur' (mapInsert st
        (monthly_key (ymU32 cur)
          (generate_tournament_id ev.venue_name ev.event_name))
        (serialize_to_string ev)) hfuel' hvc' hcy' hle'
      refine ⟨st', heq, ?_⟩
      intro k
      have hnolt : ¬(ymCode e < ymCode cur) := by omega
      rw [hchar k, ymSpan_unfold (ymCode cur), if_neg hnolt, ← hcode',
        List.map_cons]
      by_cases hk1 : k ∈ (ymSpan (ymCode cur') (ymCode e)).map
          (fun c => monthly_key c.toNat
            (generate_tournament_id ev.venue_name ev.event_name))
      · have hmem2 : k ∈ monthly_key (ymCode cur).toNat
            (generate_tournament_id ev.venue_name ev.event_name) ::
            (ymSpan (ymCode cur') (ymCode e)).map
              (fun c => monthly_key c.toNat
                (generate_tournament_id ev.venue_name ev.event_name)) :=
          List.mem_cons_of_mem _ hk1
        rw [if_pos hk1, if_pos hmem2]
      · rw [if_neg hk1, lookupKV_mapInsert, hucval]
        by_cases hk0 : k = monthly_key (ymCode cur).toNat
            (generate_tournament_id ev.venue_name ev.event_name)
        · have hmem2 : k ∈ monthly_key (ymCode cur).toNat
              (generate_tournament_id ev.venue_name ev.event_name) ::
              (ymSpan (ymCode cur') (ymCode e)).map
                (fun c => monthly_key c.toNat
                  (generate_tournament_id ev.venue_name ev.event_name)) :=
            List.mem_cons.mpr (Or.inl hk0)
          rw [if_pos hk0, if_pos hmem2]
        · have hnmem2 : ¬(k ∈ monthly_key (ymCode cur).toNat
              (generate_tournament_id ev.venue_name ev.event_name) ::
              (ymSpan (ymCode cur') (ymCode e)).map
                (fun c => monthly_key c.toNat
                  (generate_tournament_id ev.venue_name ev.event_name))) := by
            intro hmem
            rcases List.mem_cons.mp hmem with h | h
            · exact hk0 h
            · exact hk1 h
          rw [if_neg hk0, if_neg hnmem2]

theorem regLoop_overflow (ev : RaceEvent) (e : Date) (hve : ValidDate e)
    (hey : e.year = chronoMaxYear) (hem : e.month = 12) :
    ∀ (fuel : Nat) (cur : Date) (st : StoreData),
      regFuel cur ≤ fuel →
      ValidDate cur →
      0 ≤ cur.year →
      dateLeb cur e = true →
      ∃ st', regLoopFuel ev e fuel cur st = (.error .invalidValue, st') := by
  have hcodee : ymCode e = 26214312 := by
    rw [ymCode, hey, hem, chronoMaxYear]
    omega
  obtain ⟨hem1, hem2, hed1, hed2⟩ := hve
  intro fuel
  induction fuel with
  | zero =>
    intro cur st hf _ _ _
    exact absurd hf (by rw [regFuel]; omega)
  | succ fuel ih =>
    intro cur st hf hvc hcy hle
    obtain ⟨hm1, hm2, hd1, hd2⟩ := hvc
    have hcode_le : ymCode cur ≤ ymCode e := dateLeb_ymCode hm1 hm2 hem1 hem2 hle
    have hcyle : cur.year ≤ chronoMaxYear := by
      have h1 := hcode_le
      rw [ymCode, hcodee] at h1
      rw [chronoMaxYear]
      omega
    rw [regLoopFuel, if_pos hle, storePut_monthly]
    by_cases hterm : cur.month = 12 ∧ cur.year = chronoMaxYear
    · have hnone : regStep cur = none := by
        have hccond : ¬(chronoMinYear ≤ cur.year + 1 ∧
            cur.year + 1 ≤ chronoMaxYear ∧ 1 ≤ (1 : Nat) ∧ (1 : Nat) ≤ 12 ∧
            1 ≤ (1 : Nat) ∧ (1 : Nat) ≤ daysInMonth (cur.year + 1) 1) := by
          intro h
          have h2 := h.2.1
          have h3 := hterm.2
          omega
        rw [regStep, if_pos hterm.1, fromYmdOpt, if_neg hccond]
      rw [hnone]
      dsimp only
      exact ⟨_, rfl⟩
    · have hnext : regStep cur =
          some (if cur.month = 12 then (⟨cur.year + 1, 1, 1⟩ : Date)
            else ⟨cur.year, cur.month + 1, 1⟩) := by
        by_cases h12 : cur.month = 12
        · have hne : cur.year ≠ chronoMaxYear := fun h => hterm ⟨h12, h⟩
          have hyl : cur.year < chronoMaxYear := by omega
          rw [regStep, if_pos h12, if_pos h12, fromYmdOpt, if_pos ?_]
          refine ⟨by rw [chronoMinYear]; omega, by omega, by omega, by omega,
            by omega, ?_⟩
          exact daysInMonth_pos (by omega) (by omega)
        · rw [regStep, if_neg h12, if_neg h12, fromYmdOpt, if_pos ?_]
          refine ⟨by rw [chronoMinYear]; omega, hcyle, by omega, by omega,
            by omega, ?_⟩
          exact daysInMonth_pos (by omega) (by omega)
      rw [hnext]
      dsimp only
      set cur' := (if cur.month = 12 then (⟨cur.year + 1, 1, 1⟩ : Date)
        else ⟨cur.year, cur.month + 1, 1⟩) with hcur'
      obtain ⟨hc1, hc2, hc3, hc4, hc5, hc6, hshape⟩ := regStep_some hnext
      have hcy' : 0 ≤ cur'.year := by
        have h1 := hc1
        rw [ymCode, ymCode] at h1
        omega
      have hcode'le : ymCode cur' ≤ ymCode e := by omega
      have heyb : e.year ≤ chronoMaxYear := le_of_eq hey
      have hey0 : (0 : Int) ≤ e.year := by
        rw [hey, chronoMaxYear]
        omega
      have hue : (ymU32 e : Int) = ymCode e := ymU32_eq hey0 heyb hem2
      have huc' : (ymU32 cur' : Int) = ymCode cur' := ymU32_eq hcy' hc6 hc5
      have hbrkneg : ¬(ymU32 e < ymU32 cur') := by omega
      rw [if_neg hbrkneg]
      have hfuel' : regFuel cur' ≤ fuel := by
        rw [regFuel] at hf ⊢
        omega
      have hvc' : ValidDate cur' :=
        ⟨hc4, hc5, by omega,
         by
           rw [hc3]
           exact daysInMonth_pos hc4 hc5⟩
      have hle' : dateLeb cur' e = true :=
        dateLeb_of_first_day hc3 hed1 hc4 hc5 hem1 hem2 hcode'le
      exact ih cur' _ hfuel' hvc' hcy' hle'

theorem digitVal_le9 {c : Char} {n : Nat} (h : digitVal c = some n) : n ≤ 9 := by
  rw [digitVal] at h
  split at h
  · rename_i hc
    injection h with h
    subst h
    have h2 := char_le_toNat.mp hc.2
    have h9 : ('9' : Char).toNat = 57 := rfl
    omega
  · exact absurd h (by simp)

theorem parse_date_some {s : List Char} {d : Date} (h : parse_date s = some d) :
    ValidDate d ∧ 0 ≤ d.year ∧ d.year ≤ chronoMaxYear := by
  rw [parse_date.eq_def] at h
  split at h <;> try exact Option.noConfusion h
  split at h <;> try exact Option.noConfusion h
  rename_i a b c dd e f g hh ha hb hc hd he hf hg hhh
  split at h <;> try exact Option.noConfusion h
  dsimp only at h
  split at h <;> try exact Option.noConfusion h
  rename_i hcond
  injection h with h
  subst h
  refine ⟨⟨hcond.1, hcond.2.1, hcond.2.2.1, hcond.2.2.2⟩, ?_, ?_⟩
  · show (0 : Int) ≤ ((1000 * a + 100 * b + 10 * c + dd : Nat) : Int)
    omega
  · show ((1000 * a + 100 * b + 10 * c + dd : Nat) : Int) ≤ chronoMaxYear
    have h1 := digitVal_le9 ha
    have h2 := digitVal_le9 hb
    have h3 := digitVal_le9 hc
    have h4 := digitVal_le9 hd
    rw [chronoMaxYear]
    omega

/-- The December month-spanning example event of the spec: starts
2025-12-28, lasts 8 days (through 2026-01-04). -/
def decEvent : RaceEvent :=
  ⟨4, "Tokyo".data, "Year End Cup".data, "G1".data, "2025-12-28".data, 8⟩

/-- C1: for an event whose start date parses and whose end date
`start + (duration - 1) days` is representable (the addition does not
abort) and does not land in the very last representable month,
`register_tournament_to_months` succeeds and the final store maps exactly
the keys `monthly_key(tag, group id)` for each calendar month tag in the
span from the start month through the end month (December rolling into
January) to the encoded event payload, leaving every other key unchanged;
in particular the 2025-12-28 / 8-day event is visible under both the
202512 and the 202601 monthly scan with identical payloads.  (The claim's
unconditional form is refuted by `C1_register_months_counterexample`:
a representable start date with a huge `duration_days` makes the end-date
addition abort the process, so no monthly entry is written at all.) -/
theorem C1_register_months (ev : RaceEvent) (st : StoreData) (s e : Date)
    (hp : parse_date ev.start_date = some s)
    (hd : 1 ≤ ev.duration_days)
    (hadd : checkedAddDays s ((ev.duration_days : Int) - 1) = some e)
    (hve : ValidDate e)
    (hle : dateLeb s e = true)
    (hbound : ymCode e < chronoMaxYear * 100 + 12) :
    (∃ st', register_tournament_to_months ev st = some (.ok (), st') ∧
      ∀ k, lookupKV st' k =
        if k ∈ (ymSpan (ymCode s) (ymCode e)).map
            (fun c => monthly_key c.toNat
              (generate_tournament_id ev.venue_name ev.event_name))
        then some (serialize_to_string ev)
        else lookupKV st k) ∧
    (∃ st2, register_tournament_to_months decEvent [] = some (.ok (), st2) ∧
      storeScan st2 (monthly_scan_range 202512).1 (monthly_scan_range 202512).2 =
        .ok [(monthly_key 202512
                (generate_tournament_id decEvent.venue_name decEvent.event_name),
              serialize_to_string decEvent)] ∧
      storeScan st2 (monthly_scan_range 202601).1 (monthly_scan_range 202601).2 =
        .ok [(monthly_key 202601
                (generate_tournament_id decEvent.venue_name decEvent.event_name),
              serialize_to_string decEvent)]) := by
  constructor
  · obtain ⟨hvs, hs0, _⟩ := parse_date_some hp
    obtain ⟨st', heq, hchar⟩ :=
      regLoop_writes ev e hve hbound (regFuel s) s st le_rfl hvs hs0 hle
    refine ⟨st', ?_, hchar⟩
    rw [register_tournament_to_months.eq_def, hp]
    dsimp only
    rw [hadd]
    dsimp only
    rw [regLoop, heq]
  · exact ⟨_, rfl, by decide, by decide⟩

/-- Witness for C1: the theorem applied to the December example itself —
start 2025-12-28, duration 8, end date 2026-01-04 — with every hypothesis
checked by evaluation. -/
theorem C1_register_months_witness :
    parse_date decEvent.start_date = some ⟨2025, 12, 28⟩ ∧
    ((∃ st', register_tournament_to_months decEvent [] = some (.ok (), st') ∧
      ∀ k, lookupKV st' k =
        if k ∈ (ymSpan (ymCode ⟨2025, 12, 28⟩) (ymCode ⟨2026, 1, 4⟩)).map
            (fun c => monthly_key c.toNat
              (generate_tournament_id decEvent.venue_name decEvent.event_name))
        then some (serialize_to_string decEvent)
        else lookupKV [] k) ∧
    (∃ st2, register_tournament_to_months decEvent [] = some (.ok (), st2) ∧
      storeScan st2 (monthly_scan_range 202512).1 (monthly_scan_range 202512).2 =
        .ok [(monthly_key 202512
                (generate_tournament_id decEvent.venue_name decEvent.event_name),
              serialize_to_string decEvent)] ∧
      storeScan st2 (monthly_scan_range 202601).1 (monthly_scan_range 202601).2 =
        .ok [(monthly_key 202601
                (generate_tournament_id decEvent.venue_name decEvent.event_name),
              serialize_to_string decEvent)])) :=
  ⟨by decide,
   C1_register_months decEvent [] ⟨2025, 12, 28⟩ ⟨2026, 1, 4⟩ (by decide)
     (by decide) (by decide) (by decide) (by decide) (by decide)⟩

/-- Counterexample to C1 as stated: this event's start date parses
(9999-12-31) and its duration is at least 1, yet
`register_tournament_to_months` writes no monthly entry at all — the
end-date computation `start + (duration - 1) days` leaves the representable
calendar range, which in the source is a panicking `+`, modelled as the
outer `none`. -/
theorem C1_register_months_counterexample :
    parse_date ("9999-12-31".data) = some ⟨9999, 12, 31⟩ ∧
    1 ≤ (4294967295 : Nat) ∧
    register_tournament_to_months
      ⟨4, "Tokyo".data, "Big Event".data, "G1".data, "9999-12-31".data,
        4294967295⟩ [] = none := by
  refine ⟨by decide, by decide, by decide⟩

/-- C7 (amended): the three failure paths of
`register_tournament_to_months`.  (a) If the start date does not parse, it
returns `InvalidValue` and the store is unchanged.  (b) If the end-date
addition `start + (duration - 1) days` leaves the representable range, the
source's `+` panics — modelled as `none` — so no `InvalidValue` error is
returned (this corrects the claim, which asserted `InvalidValue` here; see
the counterexample).  (c) If stepping past the end month overflows — the
end month is December of the maximum representable year — the loop's
`from_ymd_opt ... ok_or_else(InvalidValue)` fails and the function returns
`InvalidValue`. -/
theorem C7_register_error_paths (ev : RaceEvent) (st : StoreData) :
    (parse_date ev.start_date = none →
      register_tournament_to_months ev st = some (.error .invalidValue, st)) ∧
    (∀ s, parse_date ev.start_date = some s →
      checkedAddDays s ((ev.duration_days : Int) - 1) = none →
      register_tournament_to_months ev st = none) ∧
    (∀ s e, parse_date ev.start_date = some s →
      checkedAddDays s ((ev.duration_days : Int) - 1) = some e →
      ValidDate e → dateLeb s e = true →
      e.year = chronoMaxYear → e.month = 12 →
      ∃ st', register_tournament_to_months ev st =
        some (.error .invalidValue, st')) := by
  refine ⟨?_, ?_, ?_⟩
  · intro hp
    rw [register_tournament_to_months.eq_def, hp]
  · intro s hp hadd
    rw [register_tournament_to_months.eq_def, hp]
    dsimp only
    rw [hadd]
  · intro s e hp hadd hve hle hey hem
    obtain ⟨hvs, hs0, _⟩ := parse_date_some hp
    obtain ⟨st', heq⟩ :=
      regLoop_overflow ev e hve hey hem (regFuel s) s st le_rfl hvs hs0 hle
    refine ⟨st', ?_⟩
    rw [register_tournament_to_months.eq_def, hp]
    dsimp only
    rw [hadd]
    dsimp only
    rw [regLoop, heq]

/-- Witness for C7: all three paths exercised on concrete events — an
unparseable start date, a duration whose end-date addition leaves the
calendar range, and a duration whose end month is December of the maximum
representable year so the next-month step overflows. -/
theorem C7_register_error_paths_witness :
    register_tournament_to_months
      (⟨1, "Venue".data, "Event".data, "G1".data, "not-a-date".data, 3⟩ :
        RaceEvent) [] = some (.error .invalidValue, []) ∧
    register_tournament_to_months
      (⟨2, "Venue".data, "Event".data, "G1".data, "9999-12-31".data,
        4294967294⟩ : RaceEvent) [] = none ∧
    ∃ st', register_tournament_to_months
      (⟨3, "Venue".data, "Event".data, "G1".data, "9999-12-31".data,
        92093676⟩ : RaceEvent) [] = some (.error .invalidValue, st') :=
  ⟨(C7_register_error_paths _ []).1 (by decide),
   (C7_register_error_paths _ []).2.1 ⟨9999, 12, 31⟩ (by decide) (by decide),
   (C7_register_error_paths _ []).2.2 ⟨9999, 12, 31⟩ ⟨262143, 12, 1⟩
     (by decide) (by decide) (by decide) (by decide) (by decide) (by decide)⟩

/-- Counterexample to C7 as stated: when the end-date addition
`start + (duration - 1) days` overflows the representable calendar range,
the function does not fail with `InvalidValue` — the source's `NaiveDate +
Duration` panics, modelled as the outer `none`, so no error value is ever
produced. -/
theorem C7_register_error_paths_counterexample :
    parse_date ("9999-12-31".data) = some ⟨9999, 12, 31⟩ ∧
    checkedAddDays ⟨9999, 12, 31⟩ ((4294967295 : Int) - 1) = none ∧
    register_tournament_to_months
      ⟨7, "Venue".data, "Event".data, "G1".data, "9999-12-31".data,
        4294967295⟩ [] = none := by
  refine ⟨by decide, by decide, by decide⟩

end NorimakiDB
